import Mathlib

/-!
Verification of the vault core of `my-second-brain`:
`backend/app/core/vault_manager.py` (VaultManager) and
`backlink_resolver.py` (BacklinkResolver), shallowly embedded in Lean.

Strings are manipulated through their underlying character lists so that
every definition evaluates by kernel reduction.  Python's `str.lower`,
`str.strip`, `str.split`, substring containment and lexicographic
comparison are reimplemented character by character (ASCII-faithful,
which covers every input the claims exercise).
-/

deriving instance DecidableEq for Except

namespace Vault

/-- Python `str.lower` on one character (ASCII range). -/
def pyCharLower (c : Char) : Char :=
  if 'A' ≤ c ∧ c ≤ 'Z' then Char.ofNat (c.toNat + 32) else c

/-- Python `str.lower` (ASCII-faithful). -/
def pyLower (s : String) : String :=
  ⟨s.data.map pyCharLower⟩

/-- Python `str.strip` on a character list: drop whitespace at both ends. -/
def trimChars (l : List Char) : List Char :=
  ((l.dropWhile Char.isWhitespace).reverse.dropWhile Char.isWhitespace).reverse

/-- Python `str.strip`. -/
def pyStrip (s : String) : String :=
  ⟨trimChars s.data⟩

/-- Python `str.split()` with no separator: split on whitespace runs,
discarding empty pieces. -/
def splitWsChars (l : List Char) : List String :=
  let rec go : List Char → List Char → List String
    | [], acc => if acc.isEmpty then [] else [⟨acc.reverse⟩]
    | c :: rest, acc =>
      if c.isWhitespace then
        if acc.isEmpty then go rest [] else ⟨acc.reverse⟩ :: go rest []
      else
        go rest (c :: acc)
  go l []

/-- Python `str.split()` (whitespace, no empties). -/
def pySplit (s : String) : List String :=
  splitWsChars s.data

/-- Split a character list at every occurrence of one character
(Python `str.split(sep)` for a one-character separator; keeps empties). -/
def splitAtChar (sep : Char) (l : List Char) : List (List Char) :=
  let rec go : List Char → List Char → List (List Char)
    | [], acc => [acc.reverse]
    | c :: rest, acc =>
      if c = sep then acc.reverse :: go rest [] else go rest (c :: acc)
  go l []

/-- Substring occurrence on character lists. -/
def isSubChars (needle : List Char) : List Char → Bool
  | [] => needle.isEmpty
  | c :: rest => needle.isPrefixOf (c :: rest) || isSubChars needle rest

/-- Python substring containment `needle in hay`. -/
def pyContains (hay needle : String) : Bool :=
  isSubChars needle.data hay.data

/-- Python `str.startswith`. -/
def pyStarts (s p : String) : Bool :=
  p.data.isPrefixOf s.data

/-- Python `str.endswith`. -/
def pyEnds (s suf : String) : Bool :=
  suf.data.isSuffixOf s.data

/-- Lexicographic code-point order on character lists (Python string `<=`). -/
def lexLe : List Char → List Char → Bool
  | [], _ => true
  | _ :: _, [] => false
  | a :: as, b :: bs =>
    if a.toNat < b.toNat then true
    else if b.toNat < a.toNat then false
    else lexLe as bs

/-- Python string comparison `s <= t` used by `sorted`. -/
def pathLe (s t : String) : Bool :=
  lexLe s.data t.data

/-- Path components of a path string, as `pathlib` normalizes them:
split on `/`, dropping empty and `.` pieces (`..` is kept as a
component). -/
def pathSegs (s : String) : List String :=
  ((splitAtChar '/' s.data).map (fun l => (⟨l⟩ : String))).filter
    (fun t => t ≠ "" && t ≠ ".")

/-- The filename component of a path: its last component
(Python `Path(p).name`). -/
def fileName (p : String) : String :=
  (pathSegs p).getLastD ""

/-- Python `Path(p).stem`: the filename with its last extension removed;
a dot at position 0 (hidden file) does not start an extension. -/
def stemOfName (n : List Char) : List Char :=
  match n with
  | [] => []
  | c0 :: rest =>
    if ('.' ∈ rest) then
      let pieces := splitAtChar '.' (c0 :: rest)
      (List.intercalate ['.'] (pieces.dropLast))
    else c0 :: rest

/-- Python `Path(p).stem` for a relative path. -/
def pathStem (p : String) : String :=
  ⟨stemOfName (fileName p).data⟩

/-!
## Path Guard — `VaultManager._validate_path`

An absolute filesystem path is a list of segments.  `resolveSegs` is the
lexical content of `pathlib.Path.resolve`: `..` pops one segment and is
a no-op at the filesystem root.  A relative-path string is parsed the
way `pathlib` parses it: split on `/`, dropping empty and `.`
components; a string with a leading `/` is absolute, and
`Path.__truediv__` replaces the base with an absolute right operand.
`_validate_path` then compares RENDERED strings:
`str(absolute).startswith(str(self.vault_path))`.
-/

def isAbsPath (s : String) : Bool := pyStarts s "/"

/-- Lexical `Path.resolve`: apply the segments to a base path. -/
def resolveSegs (base : List String) : List String → List String
  | [] => base
  | seg :: rest =>
    if seg = ".." then resolveSegs base.dropLast rest
    else resolveSegs (base ++ [seg]) rest

/-- Render an absolute segment path as `str(Path(...))` does. -/
def renderSegs : List String → List Char
  | [] => []
  | s :: rest => '/' :: s.data ++ renderSegs rest

def renderAbs (segs : List String) : String :=
  if segs.isEmpty then "/" else ⟨renderSegs segs⟩

/-- The canonical resolution of `vaultRoot / relativePath`
(`(self.vault_path / relative_path).resolve()`). -/
def resolvedPath (root : List String) (rel : String) : List String :=
  if isAbsPath rel then resolveSegs [] (pathSegs rel)
  else resolveSegs root (pathSegs rel)

/-- `VaultManager._validate_path`: resolve, then accept iff the rendered
absolute path starts with the rendered vault root; `none` models the
raised `ValueError` ("Path traversal detected"). -/
def validate (root : List String) (rel : String) : Option (List String) :=
  let absolute := resolvedPath root rel
  if pyStarts (renderAbs absolute) (renderAbs root) then some absolute
  else none

/-- A resolved path genuinely lies under the root when the root's
segments are a segmentwise prefix of it. -/
def segUnder (root abs : List String) : Bool :=
  root.isPrefixOf abs

/-!
## Link Extractor — `VaultManager.extract_wikilinks`

The regex `\[\[([^\]|#]+)(?:#([^\]|]+))?(?:\|([^\]]+))?\]\]` is matched
by maximal-munch character classes; because every class excludes the
delimiter that follows it, regex backtracking can never produce a match
the greedy scan misses, so the translation below is exact.  `finditer`
semantics: scan left to right, emit the leftmost match, continue after
its end; on failure advance one character.
-/

structure Wikilink where
  raw : String
  target : String
  heading : Option String := none
  «alias» : Option String := none
deriving DecidableEq

def wlClass1 (c : Char) : Bool := !(c = ']' || c = '|' || c = '#')
def wlClass2 (c : Char) : Bool := !(c = ']' || c = '|')
def wlClass3 (c : Char) : Bool := !(c = ']')

/-- Try to match the wikilink pattern at the start of `l`; on success
return the parsed link and the input remaining after the match. -/
def wlMatchAt (l : List Char) : Option (Wikilink × List Char) :=
  match l with
  | '[' :: '[' :: rest =>
    let tgt := rest.takeWhile wlClass1
    if tgt.isEmpty then none
    else
      let r1 := rest.dropWhile wlClass1
      let step2 : Option (List Char) × List Char :=
        match r1 with
        | '#' :: r =>
          let h := r.takeWhile wlClass2
          if h.isEmpty then (none, r1) else (some h, r.dropWhile wlClass2)
        | _ => (none, r1)
      let hd := step2.1
      let step3 : Option (List Char) × List Char :=
        match step2.2 with
        | '|' :: r =>
          let a := r.takeWhile wlClass3
          if a.isEmpty then (none, step2.2) else (some a, r.dropWhile wlClass3)
        | _ => (none, step2.2)
      let al := step3.1
      match step3.2 with
      | ']' :: ']' :: r4 =>
        some (⟨⟨l.take (l.length - r4.length)⟩, ⟨trimChars tgt⟩,
               hd.map (fun h => ⟨trimChars h⟩),
               al.map (fun a => ⟨trimChars a⟩)⟩, r4)
      | _ => none
  | _ => none

/-- Left-to-right scan; the fuel starts at the input length, which
bounds the number of scan steps since every step consumes at least one
character. -/
def wlScan : Nat → List Char → List Wikilink
  | 0, _ => []
  | _ + 1, [] => []
  | fuel + 1, c :: cs =>
    match wlMatchAt (c :: cs) with
    | some (link, rest) => link :: wlScan fuel rest
    | none => wlScan fuel cs

/-- `VaultManager.extract_wikilinks`. -/
def extract_wikilinks (content : String) : List Wikilink :=
  wlScan content.data.length content.data

/-- `BacklinkResolver.extract_wikilinks`: the resolver compiles the
identical pattern with the heading and alias groups non-capturing, and
`findall` returns the stripped first group — the `target` field of the
scan above. -/
def br_extract_wikilinks (content : String) : List String :=
  (extract_wikilinks content).map (fun l => l.target)

/-!
## Note Codec

`VaultManager` delegates metadata handling to the third-party
`python-frontmatter` library (`frontmatter.loads` / `frontmatter.dumps`),
whose code is not part of this repository.  The codec below is therefore
modelled from the spec (§4.2 Note Codec): a leading metadata block
between `---` delimiter lines, fields restricted to string or
string-array values, and the round-trip law
`decode(encode(b, m)) == (m, b)`.  Field values are serialized in a
fixed quoted form with `\`-escaping of the quote, the backslash and the
newline, which realizes the round-trip law for arbitrary strings.
-/

inductive MetaVal where
  | str (s : String)
  | arr (l : List String)
deriving DecidableEq

/-- A metadata mapping: ordered key/value pairs, as a Python dict. -/
abbrev Meta := List (String × MetaVal)

def metaGet (m : Meta) (k : String) : Option MetaVal :=
  (m.find? (fun kv => kv.1 == k)).map (fun kv => kv.2)

def escChar (c : Char) : List Char :=
  if c = '\\' then ['\\', '\\']
  else if c = '"' then ['\\', '"']
  else if c = '\n' then ['\\', 'n']
  else [c]

def escape (l : List Char) : List Char := l.flatMap escChar

/-- A quoted, escaped scalar. -/
def qChars (l : List Char) : List Char := '"' :: (escape l ++ ['"'])

def arrJoin : List String → List Char
  | [] => []
  | [v] => qChars v.data
  | v :: w :: rest => qChars v.data ++ ',' :: ' ' :: arrJoin (w :: rest)

def serVal : MetaVal → List Char
  | .str v => qChars v.data
  | .arr vs => '[' :: (arrJoin vs ++ [']'])

def serField (kv : String × MetaVal) : List Char :=
  qChars kv.1.data ++ ':' :: ' ' :: (serVal kv.2 ++ ['\n'])

def fmDelim : List Char := ['-', '-', '-', '\n']

/-- Modelled from the spec: `encode(body, fields) → rawText` of the Note
Codec (§4.2), standing in for `frontmatter.dumps(frontmatter.Post(content,
**metadata))`, whose source is outside this repository. -/
def encode (body : String) (m : Meta) : String :=
  ⟨fmDelim ++ ((m.flatMap serField) ++ (fmDelim ++ body.data))⟩

def parseQLoop (acc : List Char) : List Char → Option (List Char × List Char)
  | [] => none
  | c :: rest =>
    if c = '"' then some (acc.reverse, rest)
    else if c = '\\' then
      match rest with
      | [] => none
      | d :: rest2 => parseQLoop ((if d = 'n' then '\n' else d) :: acc) rest2
    else parseQLoop (c :: acc) rest

def parseQuoted : List Char → Option (List Char × List Char)
  | '"' :: rest => parseQLoop [] rest
  | _ => none

/-- Array elements; the fuel bounds the number of elements, each of
which occupies at least one input character. -/
def parseArrLoop : Nat → List String → List Char → Option (List String × List Char)
  | 0, _, _ => none
  | fuel + 1, acc, l =>
    match parseQuoted l with
    | none => none
    | some (s, rest) =>
      match rest with
      | ']' :: r => some ((((⟨s⟩ : String) :: acc)).reverse, r)
      | ',' :: ' ' :: r => parseArrLoop fuel ((⟨s⟩ : String) :: acc) r
      | _ => none

def parseVal (l : List Char) : Option (MetaVal × List Char) :=
  match l with
  | '[' :: rest =>
    match rest with
    | ']' :: r => some (.arr [], r)
    | _ => (parseArrLoop rest.length [] rest).map (fun p => (.arr p.1, p.2))
  | _ => (parseQuoted l).map (fun p => (.str ⟨p.1⟩, p.2))

def parseField (l : List Char) : Option ((String × MetaVal) × List Char) :=
  match parseQuoted l with
  | none => none
  | some (k, r1) =>
    match r1 with
    | ':' :: ' ' :: r2 =>
      match parseVal r2 with
      | none => none
      | some (v, r3) =>
        match r3 with
        | '\n' :: r4 => some (((⟨k⟩ : String), v), r4)
        | _ => none
    | _ => none

/-- Field lines until the closing delimiter; the fuel bounds the number
of fields, each of which occupies at least one input character. -/
def decodeLoop : Nat → Meta → List Char → Option (Meta × List Char)
  | 0, _, _ => none
  | fuel + 1, acc, l =>
    match l with
    | '-' :: '-' :: '-' :: '\n' :: rest => some (acc.reverse, rest)
    | _ =>
      match parseField l with
      | none => none
      | some (f, rest) => decodeLoop fuel (f :: acc) rest

/-- Modelled from the spec: `decode(rawText) → (fields, body)` of the
Note Codec (§4.2), standing in for `frontmatter.loads`, whose source is
outside this repository.  Text with no leading delimiter is all body
with empty fields; a malformed metadata block is a `DecodeFailure`
(`none`). -/
def decode (raw : String) : Option (Meta × String) :=
  match raw.data with
  | '-' :: '-' :: '-' :: '\n' :: rest =>
    (decodeLoop rest.length [] rest).map (fun p => (p.1, (⟨p.2⟩ : String)))
  | _ => some ([], raw)

/-!
## Data model — `NoteMeta` and `Note`

`Note.modified` (a wall-clock `st_mtime` timestamp) is outside this
embedding: no claim mentions it and it is not a function of the inputs.
-/

def metaKnownKeys : List String := ["tags", "aliases", "created", "modified", "title"]

structure NoteMeta where
  tags : MetaVal
  aliases : MetaVal
  created : Option MetaVal
  modified : Option MetaVal
  title : Option MetaVal
  extra : Meta
deriving DecidableEq

/-- The `NoteMeta(...)` construction in `read_note`: recognized keys with
their Python defaults, everything else into `extra`. -/
def buildNoteMeta (m : Meta) : NoteMeta :=
  ⟨(metaGet m "tags").getD (.arr []),
   (metaGet m "aliases").getD (.arr []),
   metaGet m "created", metaGet m "modified", metaGet m "title",
   m.filter (fun kv => !(metaKnownKeys.contains kv.1))⟩

structure Note where
  path : String
  title : String
  content : String
  frontmatter : NoteMeta
deriving DecidableEq

/-- `meta.title or abs_path.stem`: Python truthiness, so an absent or
empty title falls back to the filename stem.  (A non-string title — a
YAML list — would be carried as-is by Python into the `str`-annotated
field; `Note.title` is a `String` here, so that unexercised case also
falls back to the stem.) -/
def resolveTitle : Option MetaVal → String → String
  | some (.str s), stem => if s = "" then stem else s
  | _, stem => stem

/-!
## Note Store — `read_note`, `write_note`, `delete_note`

The storage collaborator is a map from absolute segment paths to file
data.  Directories are implicit (a path is a directory when files live
strictly below it), so `mkdir` has no observable effect and a directory
never has an exact file entry — `read_note`'s missing-target and
is-a-directory cases coincide in the model.

Python exceptions are a sum type.  `UnicodeDecodeError` is a subclass of
`ValueError` in Python's exception hierarchy, which is what the
`except ValueError: raise` clause of `read_note` dispatches on.
-/

inductive FileData where
  | text (s : String)
  | binary
deriving DecidableEq

/-- The storage collaborator: absolute segment path ↦ file data. -/
abbrev FS := List (List String × FileData)

def fsLookup (st : FS) (p : List String) : Option FileData :=
  (st.find? (fun e => e.1 == p)).map (fun e => e.2)

def fsUpsert (st : FS) (p : List String) (d : FileData) : FS :=
  if st.any (fun e => e.1 == p) then
    st.map (fun e => if e.1 == p then (p, d) else e)
  else st ++ [(p, d)]

def fsRemove (st : FS) (p : List String) : FS :=
  st.filter (fun e => !(e.1 == p))

inductive PyErr where
  | pathTraversal
  | unicodeDecodeError
  | yamlError
  | runtimeError
deriving DecidableEq

/-- Membership in Python's `ValueError` class: the traversal
`ValueError` and `UnicodeDecodeError` (a `ValueError` subclass);
YAML/frontmatter parse errors and `RuntimeError` are not. -/
def PyErr.isValueError : PyErr → Bool
  | pathTraversal => true
  | unicodeDecodeError => true
  | _ => false

/-- `VaultManager.read_note`.  The inner value is the `try` body:
validation, existence/is-file check, UTF-8 read (`binary` data raises
`UnicodeDecodeError`), frontmatter decode (failure raises a non-
`ValueError`), then `Note` construction.  The wrapper is the handler
pair: `except ValueError: raise` re-raises, `except Exception` logs and
returns `None`. -/
def read_note (st : FS) (root : List String) (rel : String) :
    Except PyErr (Option Note) :=
  let body : Except PyErr (Option Note) :=
    match validate root rel with
    | none => .error .pathTraversal
    | some abs =>
      match fsLookup st abs with
      | none => .ok none
      | some .binary => .error .unicodeDecodeError
      | some (.text raw) =>
        match decode raw with
        | none => .error .yamlError
        | some (m, b) =>
          let nm := buildNoteMeta m
          .ok (some ⟨rel, resolveTitle nm.title ⟨stemOfName (abs.getLastD "").data⟩,
                     b, nm⟩)
  match body with
  | .error e => if e.isValueError then .error e else .ok none
  | other => other

/-- `VaultManager.write_note`: validate, create parent directories
(no-op here), encode and persist, then re-read; a failed re-read is the
`RuntimeError`.  The state is returned alongside the outcome so that
"no side effect before validation" is observable. -/
def write_note (st : FS) (root : List String) (rel : String)
    (content : String) (m : Meta) : FS × Except PyErr Note :=
  match validate root rel with
  | none => (st, .error .pathTraversal)
  | some abs =>
    let st2 := fsUpsert st abs (.text (encode content m))
    match read_note st2 root rel with
    | .error e => (st2, .error e)
    | .ok none => (st2, .error .runtimeError)
    | .ok (some n) => (st2, .ok n)

/-- `VaultManager.delete_note`: validate, existence check, unlink. -/
def delete_note (st : FS) (root : List String) (rel : String) :
    FS × Except PyErr Bool :=
  match validate root rel with
  | none => (st, .error .pathTraversal)
  | some abs =>
    match fsLookup st abs with
    | none => (st, .ok false)
    | some _ => (fsRemove st abs, .ok true)

/-!
## Corpus-level operations

`list_notes`, `search_notes`, `get_backlinks` and `get_outgoing_links`
work on the vault seen through `list()` + `read()`: here, a list of
vault-relative `(path, text)` files in scan order.  Text-only content is
assumed for corpus scans — a non-UTF-8 file makes the whole scan raise
(the `read_note` behaviour proved under C3).  Paths produced by
`rglob` under the vault root are relative and dot-free, so
`_validate_path` always accepts them; validation is therefore dropped
from the relative-level reader below.
-/

/-- Vault-relative corpus: path ↦ UTF-8 text, in directory-scan order. -/
abbrev RelFS := List (String × String)

def relLookup (files : RelFS) (p : String) : Option String :=
  (files.find? (fun e => e.1 == p)).map (fun e => e.2)

/-- `md_file.name.startswith(".")`. -/
def isHidden (p : String) : Bool := pyStarts (fileName p) "."

/-- A filename matched by `rglob("*.md")`. -/
def isMdFile (p : String) : Bool := pyEnds (fileName p) ".md"

/-- The files visited by a corpus scan: `rglob("*.md")` minus hidden
files (the same filter appears in `list_notes` and in
`BacklinkResolver.scan_vault`). -/
def eligible (files : RelFS) : RelFS :=
  files.filter (fun f => isMdFile f.1 && !isHidden f.1)

def pathLeP (a b : String) : Prop := pathLe a b = true

instance : DecidableRel pathLeP := fun _ _ =>
  inferInstanceAs (Decidable (_ = true))

/-- `VaultManager.list_notes` (vault root folder): markdown files,
hidden names skipped, lexicographically sorted. -/
def list_notes (files : RelFS) : List String :=
  ((eligible files).map (fun f => f.1)).insertionSort pathLeP

/-- `read_note` at the relative level (path already validated, text
content): frontmatter decode, title fallback to the stem; a decode
failure is the logged-and-skipped `None`. -/
def readRel (files : RelFS) (p : String) : Option Note :=
  (relLookup files p).bind fun raw =>
    (decode raw).map fun mb =>
      let nm := buildNoteMeta mb.1
      ⟨p, resolveTitle nm.title (pathStem p), mb.2, nm⟩

/-- `VaultManager._iter_notes`: every listed path, read, skipping
unreadable notes. -/
def iter_notes (files : RelFS) : List Note :=
  (list_notes files).filterMap (readRel files)

/-!
## Search Engine — `VaultManager.search_notes`
-/

structure SearchResult where
  note : Note
  score : ℚ
  excerpts : List String
deriving DecidableEq

/-- `query.lower().split()`. -/
def queryTerms (query : String) : List String := pySplit (pyLower query)

/-- `sum(1 for term in query_terms if term in title_lower)`. -/
def titleMatches (terms : List String) (n : Note) : Nat :=
  (terms.filter (fun t => pyContains (pyLower n.title) t)).length

/-- `sum(1 for term in query_terms if term in content_lower)`. -/
def contentMatches (terms : List String) (n : Note) : Nat :=
  (terms.filter (fun t => pyContains (pyLower n.content) t)).length

/-- `min((title_matches * 2 + content_matches) / (len(query_terms) * 3), 1.0)`,
in exact rational arithmetic (`mkRat` agrees with `/` on these
operands — see `mkScore_eq_div` — and evaluates by kernel reduction). -/
def mkScore (terms : List String) (n : Note) : ℚ :=
  min (mkRat (titleMatches terms n * 2 + contentMatches terms n)
             (terms.length * 3)) 1

/-- Python `content_lower.find(term)`: first match index. -/
def strFind (needle : List Char) : List Char → Option Nat :=
  let rec go (i : Nat) : List Char → Option Nat
    | [] => if needle.isEmpty then some i else none
    | c :: rest =>
      if needle.isPrefixOf (c :: rest) then some i else go (i + 1) rest
  go 0

/-- `VaultManager._extract_excerpts` with the default 100-character
context window: first occurrence per term, `...` markers at clipped
ends, at most 3 excerpts. -/
def extract_excerpts (content : String) (terms : List String) : List String :=
  let cs := content.data
  let cl := (pyLower content).data
  (terms.filterMap (fun term =>
    match strFind term.data cl with
    | none => none
    | some idx =>
      let start := idx - 100
      let stop := min cs.length (idx + term.data.length + 100)
      let excerpt := (cs.drop start).take (stop - start)
      let e1 := if 0 < start then '.' :: '.' :: '.' :: excerpt else excerpt
      let e2 := if stop < cs.length then e1 ++ ['.', '.', '.'] else e1
      some ((⟨e2⟩ : String)))).take 3

/-- The result list before sorting: notes with no matching term are
skipped (`continue`), the rest are scored, in corpus scan order. -/
def scoreList (corpus : List Note) (terms : List String) : List SearchResult :=
  corpus.filterMap (fun n =>
    if titleMatches terms n == 0 && contentMatches terms n == 0 then none
    else some ⟨n, mkScore terms n, extract_excerpts n.content terms⟩)

/-- `results.sort(key=lambda r: r.score, reverse=True)`: a stable
descending sort is `b.score ≤ a.score` as the order relation. -/
def byScore (a b : SearchResult) : Prop := b.score ≤ a.score

instance : DecidableRel byScore := fun _ _ =>
  inferInstanceAs (Decidable (_ ≤ _))

instance : IsTotal SearchResult byScore :=
  ⟨fun a b => le_total b.score a.score⟩

instance : IsTrans SearchResult byScore :=
  ⟨fun _ _ _ h1 h2 => le_trans h2 h1⟩

/-- `VaultManager.search_notes` over an already-read corpus. -/
def search_notes (corpus : List Note) (query : String) (maxResults : Nat) :
    List SearchResult :=
  ((scoreList corpus (queryTerms query)).insertionSort byScore).take maxResults

/-!
## Link Graph Resolver, per-query — `get_backlinks`, `get_outgoing_links`
-/

/-- The inner loop of `get_backlinks`: append once and `break` on the
first link whose target matches, which is exactly an existence test over
the note's links. -/
def linksToName (n : Note) (lowerName : String) : Bool :=
  (extract_wikilinks n.content).any (fun l => pyLower l.target == lowerName)

/-- `VaultManager.get_backlinks` over an already-read corpus: one
`(name, path)` record — `{"name": note.title, "path": note.path}` — per
matching note, in scan order. -/
def get_backlinks (corpus : List Note) (name : String) : List (String × String) :=
  corpus.filterMap (fun n =>
    if linksToName n (pyLower name) then some (n.title, n.path) else none)

/-- `VaultManager._find_note_by_name`: first listed path whose stem
matches case-insensitively. -/
def find_note_by_name (files : RelFS) (name : String) : Option String :=
  (list_notes files).find? (fun p => pyLower (pathStem p) == pyLower name)

/-- `VaultManager.get_outgoing_links`: read the source, resolve each
link's target, keep only resolvable ones as
`{"name": link.target, "path": target_path}`. -/
def get_outgoing_links (files : RelFS) (rel : String) : List (String × String) :=
  match readRel files rel with
  | none => []
  | some note =>
    (extract_wikilinks note.content).filterMap (fun l =>
      (find_note_by_name files l.target).map (fun p => (l.target, p)))

/-!
## Link Graph Resolver, batch — `BacklinkResolver`

`scan_vault` keys its graph dict by `md_file.stem` — the stem with its
original casing.  Dict assignment replaces the value of an existing key
in place (preserving insertion position) and appends a fresh key.  The
resolver reads raw file text (it never parses frontmatter), and its
`except` clause skips unreadable files, so a text-only corpus loses
nothing.
-/

structure BRData where
  path : String
  outgoing : List String
  backlinks : List String
deriving DecidableEq

/-- The graph dict: insertion-ordered key/value pairs. -/
abbrev BRGraph := List (String × BRData)

def brLookup (g : BRGraph) (k : String) : Option BRData :=
  (g.find? (fun e => e.1 == k)).map (fun e => e.2)

/-- Python dict assignment `graph[k] = v`. -/
def brInsert (g : BRGraph) (k : String) (v : BRData) : BRGraph :=
  if g.any (fun e => e.1 == k) then
    g.map (fun e => if e.1 == k then (k, v) else e)
  else g ++ [(k, v)]

/-- Pass 1 of `scan_vault`: per eligible file, its stem keys
`{path, outgoing_links, backlinks: []}`. -/
def scan_pass1 (files : RelFS) : BRGraph :=
  (eligible files).foldl
    (fun g f => brInsert g (pathStem f.1) ⟨f.1, br_extract_wikilinks f.2, []⟩) []

/-- `for key in graph.keys(): if key.lower() == target.lower()`: the
first case-insensitively matching key. -/
def brFindKey (g : BRGraph) (t : String) : Option String :=
  (g.map (fun e => e.1)).find? (fun k => pyLower k == pyLower t)

/-- `graph[target_key]["backlinks"].append(note_name)`. -/
def brAppendBacklink (g : BRGraph) (k src : String) : BRGraph :=
  g.map (fun e =>
    if e.1 == k then (e.1, ⟨e.2.path, e.2.outgoing, e.2.backlinks ++ [src]⟩)
    else e)

/-- One step of pass 2: match one (source, target) occurrence against
the keys and append the source to the matching key's backlinks, if
any. -/
def brStep (g2 : BRGraph) (p : String × String) : BRGraph :=
  match brFindKey g2 p.2 with
  | some k => brAppendBacklink g2 k p.1
  | none => g2

/-- Pass 2 of `scan_vault`: every (source, target) occurrence — in graph
insertion order, outgoing order within a source, duplicates kept — is
matched against the keys and appended to the target's backlink list.
The iteration reads keys and outgoing lists, which pass 2 never
mutates, so iterating the initial graph is faithful. -/
def scan_pass2 (g : BRGraph) : BRGraph :=
  (g.flatMap (fun e => e.2.outgoing.map (fun t => (e.1, t)))).foldl brStep g

/-- `BacklinkResolver.scan_vault`. -/
def scan_vault (files : RelFS) : BRGraph :=
  scan_pass2 (scan_pass1 files)

/-- `BacklinkResolver.get_backlinks`: find the queried note's key
case-insensitively (no note → `[]`), then report each recorded source as
`{"name": source_name, "path": graph[source_name]["path"]}`; every
recorded source name is a graph key, so the inner lookup always
succeeds. -/
def br_get_backlinks (files : RelFS) (name : String) : List (String × String) :=
  let g := scan_vault files
  match brFindKey g name with
  | none => []
  | some key =>
    ((brLookup g key).map (fun d =>
      d.backlinks.filterMap (fun src =>
        (brLookup g src).map (fun sd => (src, sd.path))))).getD []

/-- `VaultManager.get_backlinks` driven from the same on-disk corpus,
for comparison with the batch resolver. -/
def vm_get_backlinks (files : RelFS) (name : String) : List (String × String) :=
  get_backlinks (iter_notes files) name

end Vault

-- sanity examples, used only to pin the helper semantics
example : Vault.pyLower "NOTE1" = "note1" := by decide
example : Vault.pyStrip "  a b " = "a b" := by decide
example : Vault.pySplit "  foo Bar  baz " = ["foo", "Bar", "baz"] := by decide
example : Vault.pySplit "" = [] := by decide
example : Vault.pyContains "hello world" "lo w" = true := by decide
example : Vault.pyContains "hello" "z" = false := by decide
example : Vault.pathStem "Projects/note.md" = "note" := by decide
example : Vault.pathStem "a.b.md" = "a.b" := by decide
example : Vault.pathStem ".md" = ".md" := by decide
example : Vault.fileName "a/b/c.md" = "c.md" := by decide
example : Vault.pathLe "a.md" = fun t => Vault.pathLe "a.md" t := rfl
example : Vault.pyStarts "/a/vault2/x" "/a/vault" = true := by decide

-- path guard sanity
example : Vault.pathSegs "../vault2/x" = ["..", "vault2", "x"] := by decide
example : Vault.pathSegs "" = [] := by decide
example : Vault.pathSegs "a//b/./c/" = ["a", "b", "c"] := by decide
example : Vault.resolvedPath ["a", "vault"] "../vault2/x" = ["a", "vault2", "x"] := by
  decide
example : Vault.validate ["a", "vault"] "../vault2/x" = some ["a", "vault2", "x"] := by
  decide
example : Vault.segUnder ["a", "vault"] ["a", "vault2", "x"] = false := by decide
example : Vault.validate ["a", "vault"] "" = some ["a", "vault"] := by decide
example : Vault.validate ["a", "vault"] "../../etc/passwd" = none := by decide
example : Vault.validate ["a", "vault"] "notes/../x.md" = some ["a", "vault", "x.md"] := by
  decide
example : Vault.validate ["a", "vault"] "/etc/passwd" = none := by decide

-- extractor sanity
example : Vault.extract_wikilinks "[[A]] [[B#H]] [[C|X]] [[D#H|X]]" =
    [⟨"[[A]]", "A", none, none⟩, ⟨"[[B#H]]", "B", some "H", none⟩,
     ⟨"[[C|X]]", "C", none, some "X"⟩, ⟨"[[D#H|X]]", "D", some "H", some "X"⟩] := by
  decide
example : Vault.extract_wikilinks "" = [] := by decide
example : Vault.extract_wikilinks "[[A#]]" = [] := by decide
example : Vault.extract_wikilinks "x [[ a b ]] y [[a]]" =
    [⟨"[[ a b ]]", "a b", none, none⟩, ⟨"[[a]]", "a", none, none⟩] := by decide
example : Vault.br_extract_wikilinks "[[A]] [[B#H|X]] [[A]]" = ["A", "B", "A"] := by
  decide

-- codec sanity
example : Vault.encode "body" [] = "---\n---\nbody" := by decide
example : Vault.decode "---\n---\nbody" = some ([], "body") := by decide
example : Vault.decode "no delimiter" = some ([], "no delimiter") := by decide
example : Vault.decode "" = some ([], "") := by decide
example : Vault.decode "---\nbroken" = none := by decide
example : Vault.decode (Vault.encode "hello\n" [("title", .str "T"), ("tags", .arr ["a", "b"])]) =
    some ([("title", .str "T"), ("tags", .arr ["a", "b"])], "hello\n") := by decide
example : Vault.decode (Vault.encode "x" [("k", .str "a\"b\\c\nd"), ("e", .arr [])]) =
    some ([("k", .str "a\"b\\c\nd"), ("e", .arr [])], "x") := by decide

-- note store sanity
example : Vault.read_note [] ["v"] "missing.md" = .ok none := by decide
example : Vault.read_note [(["v", "bad.md"], .binary)] ["v"] "bad.md" =
    .error .unicodeDecodeError := by decide
example : Vault.read_note [(["v", "bad.md"], .text "---\nbroken")] ["v"] "bad.md" =
    .ok none := by decide
example : Vault.read_note [(["v", "d", "x.md"], .text "hi")] ["v"] "d" = .ok none := by
  decide
example : Vault.read_note [(["v", "n.md"], .text "hi")] ["v"] "../../etc" =
    .error .pathTraversal := by decide
example :
    Vault.read_note [(["v", "n.md"], .text (Vault.encode "B" [("title", .str "T")]))]
      ["v"] "n.md" =
    .ok (some ⟨"n.md", "T", "B",
      ⟨.arr [], .arr [], none, none, some (.str "T"), []⟩⟩) := by decide
example :
    (Vault.write_note [] ["v"] "n.md" "B" [("title", .str "")]).2 =
    .ok ⟨"n.md", "n", "B", ⟨.arr [], .arr [], none, none, some (.str ""), []⟩⟩ := by
  decide
example : Vault.write_note [(["v", "a.md"], .text "x")] ["v"] "../e.md" "B" [] =
    ([(["v", "a.md"], .text "x")], .error .pathTraversal) := by decide
example : Vault.delete_note [(["v", "a.md"], .text "x")] ["v"] "a.md" =
    ([], .ok true) := by decide
example : Vault.delete_note [(["v", "a.md"], .text "x")] ["v"] "b.md" =
    ([(["v", "a.md"], .text "x")], .ok false) := by decide

-- corpus-level sanity (the spec's §8 scenario, slightly reduced)
example : Vault.list_notes [("note2.md", ""), (".hidden.md", ""), ("x.txt", ""),
    ("Projects/project1.md", ""), ("note1.md", "")] =
    ["Projects/project1.md", "note1.md", "note2.md"] := by decide
example : Vault.find_note_by_name [("Projects/project1.md", ""), ("note1.md", "")]
    "PROJECT1" = some "Projects/project1.md" := by decide
example : Vault.find_note_by_name [("note1.md", "")] "ghost" = none := by decide
example : Vault.get_outgoing_links
    [("note1.md", "see [[note2]]"), ("note2.md", "[[note1]] and [[project1]] and [[ghost]]"),
     ("Projects/project1.md", "[[note1#Heading|alias link]]")] "note2.md" =
    [("note1", "note1.md"), ("project1", "Projects/project1.md")] := by decide
example : Vault.get_outgoing_links [("a.md", "[[b]]")] "missing.md" = [] := by decide
example : Vault.get_backlinks
    [⟨"note1.md", "Note One", "see [[note2]]", ⟨.arr [], .arr [], none, none, none, []⟩⟩,
     ⟨"note2.md", "Note Two", "[[NOTE1]] b [[note1]]", ⟨.arr [], .arr [], none, none, none, []⟩⟩]
    "Note1" = [("Note Two", "note2.md")] := by decide
example : Vault.queryTerms "  Hello WORLD " = ["hello", "world"] := by decide
example : Vault.queryTerms "" = [] := by decide
example :
    (Vault.search_notes
      [⟨"a.md", "Note One", "alpha beta", ⟨.arr [], .arr [], none, none, none, []⟩⟩,
       ⟨"b.md", "Other", "one gamma", ⟨.arr [], .arr [], none, none, none, []⟩⟩]
      "one" 10).map (fun r => (r.note.path, r.score)) =
    [("a.md", mkRat 2 3), ("b.md", mkRat 1 3)] := by decide
example :
    (Vault.search_notes
      [⟨"a.md", "Note One", "alpha beta", ⟨.arr [], .arr [], none, none, none, []⟩⟩,
       ⟨"b.md", "Other", "one gamma", ⟨.arr [], .arr [], none, none, none, []⟩⟩]
      "one" 1).length = 1 := by decide

-- batch resolver sanity
example : (Vault.scan_vault [("Note.md", "x"), ("note.md", "y")]).map (fun e => e.1) =
    ["Note", "note"] := by decide
example : (Vault.scan_vault [("a/N.md", "[[z]]"), ("b/N.md", "y")]).map
    (fun e => (e.1, e.2.path)) = [("N", "b/N.md")] := by decide
example : Vault.br_get_backlinks [("a.md", "[[ghost]]")] "ghost" = [] := by decide
example : Vault.vm_get_backlinks [("a.md", "[[ghost]]")] "ghost" = [("a", "a.md")] := by
  decide
example : Vault.br_get_backlinks [("a.md", "[[b]] x [[b]]"), ("b.md", "")] "b" =
    [("a", "a.md"), ("a", "a.md")] := by decide
example : Vault.vm_get_backlinks [("a.md", "[[b]] x [[b]]"), ("b.md", "")] "b" =
    [("a", "a.md")] := by decide
example : Vault.br_get_backlinks [("a.md", "[[B]]"), ("B.md", "hello")] "b" =
    [("a", "a.md")] := by decide

/-!
# Helper lemmas
-/

namespace Vault

lemma isPrefixOf_append_self {α : Type} [BEq α] [LawfulBEq α] (l t : List α) :
    (l.isPrefixOf (l ++ t)) = true := by
  induction l with
  | nil => simp [List.isPrefixOf]
  | cons a l ih => simp [List.isPrefixOf, ih]

lemma exists_append_of_isPrefixOf {α : Type} [BEq α] [LawfulBEq α] :
    ∀ {l m : List α}, l.isPrefixOf m = true → ∃ t, m = l ++ t := by
  intro l
  induction l with
  | nil => exact fun h => ⟨_, rfl⟩
  | cons a l ih =>
    intro m h
    cases m with
    | nil => simp [List.isPrefixOf] at h
    | cons b m =>
      simp only [List.isPrefixOf, Bool.and_eq_true, beq_iff_eq] at h
      obtain ⟨t, rfl⟩ := ih h.2
      exact ⟨t, by simp [h.1]⟩

lemma renderSegs_append (xs ys : List String) :
    renderSegs (xs ++ ys) = renderSegs xs ++ renderSegs ys := by
  induction xs with
  | nil => rfl
  | cons s xs ih => simp [renderSegs, ih]

lemma renderAbs_starts_slash (abs : List String) :
    ∃ r, (renderAbs abs).data = '/' :: r := by
  cases abs with
  | nil => exact ⟨[], rfl⟩
  | cons s rest => exact ⟨s.data ++ renderSegs rest, rfl⟩

/-- Genuine containment (segmentwise prefix) implies the string-prefix
test of `_validate_path` accepts. -/
lemma segUnder_pyStarts {root abs : List String}
    (h : segUnder root abs = true) :
    pyStarts (renderAbs abs) (renderAbs root) = true := by
  obtain ⟨t, rfl⟩ := exists_append_of_isPrefixOf h
  cases root with
  | nil =>
    obtain ⟨r, hr⟩ := renderAbs_starts_slash ([] ++ t)
    have hroot : (renderAbs ([] : List String)).data = ['/'] := rfl
    show ((renderAbs ([] : List String)).data).isPrefixOf
      (renderAbs ([] ++ t)).data = true
    rw [hroot, hr]
    simp [List.isPrefixOf]
  | cons a rs =>
    have h1 : renderAbs ((a :: rs) ++ t) =
        ⟨renderSegs (a :: rs) ++ renderSegs t⟩ := by
      rw [renderAbs, if_neg (by simp), ← renderSegs_append]
    have h2 : renderAbs (a :: rs) = ⟨renderSegs (a :: rs)⟩ := by
      rw [renderAbs, if_neg (by simp)]
    show ((renderAbs (a :: rs)).data).isPrefixOf (renderAbs ((a :: rs) ++ t)).data
      = true
    rw [h1, h2]
    exact isPrefixOf_append_self _ _

lemma pyStarts_self (s : String) : pyStarts s s = true := by
  have h := isPrefixOf_append_self s.data []
  rw [List.append_nil] at h
  exact h

/-- `..`-free segment lists just append. -/
lemma resolveSegs_no_dotdot :
    ∀ (segs : List String) (base : List String), ".." ∉ segs →
      resolveSegs base segs = base ++ segs := by
  intro segs
  induction segs with
  | nil => intro base _; simp [resolveSegs]
  | cons s rest ih =>
    intro base h
    have hs : s ≠ ".." := fun hcon => h (hcon ▸ List.mem_cons_self s rest)
    have hrest : ".." ∉ rest := fun hcon => h (List.mem_cons_of_mem s hcon)
    simp [resolveSegs, hs, ih _ hrest]

/-- A dot-free relative path resolves to root-plus-segments and is
accepted by validation. -/
lemma validate_plain {root : List String} {rel : String}
    (habs : isAbsPath rel = false) (hdd : ".." ∉ pathSegs rel) :
    validate root rel = some (root ++ pathSegs rel) := by
  have hres : resolvedPath root rel = root ++ pathSegs rel := by
    simp [resolvedPath, habs, resolveSegs_no_dotdot _ _ hdd]
  have hund : segUnder root (root ++ pathSegs rel) = true :=
    isPrefixOf_append_self _ _
  simp [validate, hres, segUnder_pyStarts hund]

/-! ### Codec round trip -/

lemma escape_cons (c : Char) (cs : List Char) :
    escape (c :: cs) = escChar c ++ escape cs := by
  simp [escape]

lemma parseQLoop_cons (acc : List Char) (c : Char) (rest : List Char) :
    parseQLoop acc (c :: rest) =
      if c = '"' then some (acc.reverse, rest)
      else if c = '\\' then
        (match rest with
         | [] => none
         | d :: rest2 => parseQLoop ((if d = 'n' then '\n' else d) :: acc) rest2)
      else parseQLoop (c :: acc) rest := by
  rw [parseQLoop.eq_def]

lemma parseQLoop_escape (s : List Char) :
    ∀ (acc rest : List Char),
      parseQLoop acc (escape s ++ '"' :: rest) = some (acc.reverse ++ s, rest) := by
  induction s with
  | nil =>
    intro acc rest
    rw [show escape [] ++ '"' :: rest = '"' :: rest by simp [escape]]
    rw [parseQLoop_cons, if_pos rfl]
    simp
  | cons c cs ih =>
    intro acc rest
    rw [escape_cons, List.append_assoc]
    by_cases h1 : c = '\\'
    · subst h1
      rw [show (escChar '\\' : List Char) ++ (escape cs ++ '"' :: rest) =
        '\\' :: '\\' :: (escape cs ++ '"' :: rest) from rfl]
      rw [parseQLoop_cons, if_neg (by decide), if_pos rfl]
      rw [show (match ('\\' :: (escape cs ++ '"' :: rest) : List Char) with
         | [] => none
         | d :: rest2 => parseQLoop ((if d = 'n' then '\n' else d) :: acc) rest2) =
        parseQLoop ((if '\\' = 'n' then '\n' else '\\') :: acc)
          (escape cs ++ '"' :: rest) from rfl]
      rw [if_neg (by decide), ih ('\\' :: acc) rest]
      simp
    · by_cases h2 : c = '"'
      · subst h2
        rw [show (escChar '"' : List Char) ++ (escape cs ++ '"' :: rest) =
          '\\' :: '"' :: (escape cs ++ '"' :: rest) from rfl]
        rw [parseQLoop_cons, if_neg (by decide), if_pos rfl]
        rw [show (match ('"' :: (escape cs ++ '"' :: rest) : List Char) with
           | [] => none
           | d :: rest2 => parseQLoop ((if d = 'n' then '\n' else d) :: acc) rest2) =
          parseQLoop ((if '"' = 'n' then '\n' else '"') :: acc)
            (escape cs ++ '"' :: rest) from rfl]
        rw [if_neg (by decide), ih ('"' :: acc) rest]
        simp
      · by_cases h3 : c = '\n'
        · subst h3
          rw [show (escChar '\n' : List Char) ++ (escape cs ++ '"' :: rest) =
            '\\' :: 'n' :: (escape cs ++ '"' :: rest) from rfl]
          rw [parseQLoop_cons, if_neg (by decide), if_pos rfl]
          rw [show (match ('n' :: (escape cs ++ '"' :: rest) : List Char) with
             | [] => none
             | d :: rest2 => parseQLoop ((if d = 'n' then '\n' else d) :: acc) rest2) =
            parseQLoop ((if 'n' = 'n' then '\n' else 'n') :: acc)
              (escape cs ++ '"' :: rest) from rfl]
          rw [if_pos rfl, ih ('\n' :: acc) rest]
          simp
        · rw [show (escChar c : List Char) ++ (escape cs ++ '"' :: rest) =
            c :: (escape cs ++ '"' :: rest) by simp [escChar, h1, h2, h3]]
          rw [parseQLoop_cons, if_neg h2, if_neg h1, ih (c :: acc) rest]
          simp

lemma parseQuoted_qChars (s rest : List Char) :
    parseQuoted (qChars s ++ rest) = some (s, rest) := by
  have h : qChars s ++ rest = '"' :: (escape s ++ '"' :: rest) := by
    simp [qChars]
  rw [h]
  rw [show parseQuoted ('"' :: (escape s ++ '"' :: rest)) =
    parseQLoop [] (escape s ++ '"' :: rest) from rfl]
  rw [parseQLoop_escape]
  simp

lemma qChars_length (s : List Char) : (qChars s).length = (escape s).length + 2 := by
  simp [qChars]

lemma arrJoin_length : ∀ (v : String) (vs : List String),
    (v :: vs).length ≤ (arrJoin (v :: vs)).length := by
  intro v vs
  induction vs generalizing v with
  | nil => simp [arrJoin, qChars_length]
  | cons w ws ih =>
    have := ih w
    simp only [arrJoin, List.length_append, List.length_cons, qChars_length] at *
    omega

lemma parseArrLoop_succ (fuel : Nat) (acc : List String) (l : List Char) :
    parseArrLoop (fuel + 1) acc l =
      match parseQuoted l with
      | none => none
      | some (s, rest) =>
        match rest with
        | ']' :: r => some ((((⟨s⟩ : String)) :: acc).reverse, r)
        | ',' :: ' ' :: r => parseArrLoop fuel ((⟨s⟩ : String) :: acc) r
        | _ => none := by
  rw [parseArrLoop.eq_def]

lemma parseArrLoop_arrJoin : ∀ (vs : List String) (v : String)
    (acc : List String) (rest : List Char) (fuel : Nat),
    (v :: vs).length ≤ fuel →
    parseArrLoop fuel acc (arrJoin (v :: vs) ++ ']' :: rest) =
      some (acc.reverse ++ v :: vs, rest) := by
  intro vs
  induction vs with
  | nil =>
    intro v acc rest fuel hfuel
    obtain ⟨f, rfl⟩ : ∃ f, fuel = f + 1 := by
      cases fuel with
      | zero => simp at hfuel
      | succ f => exact ⟨f, rfl⟩
    rw [show arrJoin [v] = qChars v.data from rfl]
    rw [parseArrLoop_succ, parseQuoted_qChars]
    show some (((⟨v.data⟩ : String) :: acc).reverse, rest) =
      some (acc.reverse ++ [v], rest)
    simp
  | cons w ws ih =>
    intro v acc rest fuel hfuel
    obtain ⟨f, rfl⟩ : ∃ f, fuel = f + 1 := by
      cases fuel with
      | zero => simp at hfuel
      | succ f => exact ⟨f, rfl⟩
    rw [show arrJoin (v :: w :: ws) ++ ']' :: rest =
      qChars v.data ++ (',' :: ' ' :: (arrJoin (w :: ws) ++ ']' :: rest)) by
        rw [show arrJoin (v :: w :: ws) =
          qChars v.data ++ ',' :: ' ' :: arrJoin (w :: ws) from rfl]
        simp]
    rw [parseArrLoop_succ, parseQuoted_qChars]
    show parseArrLoop f ((⟨v.data⟩ : String) :: acc)
        (arrJoin (w :: ws) ++ ']' :: rest) =
      some (acc.reverse ++ v :: w :: ws, rest)
    have hf : (w :: ws).length ≤ f := by
      simp only [List.length_cons] at hfuel ⊢
      omega
    show parseArrLoop f (v :: acc) (arrJoin (w :: ws) ++ ']' :: rest) =
      some (acc.reverse ++ v :: w :: ws, rest)
    rw [ih w (v :: acc) rest f hf]
    simp

lemma arrJoin_cons_head (v : String) (vs : List String) :
    ∃ t, arrJoin (v :: vs) = '"' :: t := by
  cases vs with
  | nil => exact ⟨escape v.data ++ ['"'], rfl⟩
  | cons w ws => exact ⟨(escape v.data ++ ['"']) ++ ',' :: ' ' :: arrJoin (w :: ws), by
      simp [arrJoin, qChars]⟩

lemma parseVal_quote (t : List Char) :
    parseVal ('"' :: t) =
      (parseQuoted ('"' :: t)).map (fun p => (.str ⟨p.1⟩, p.2)) := rfl

lemma parseVal_serVal (v : MetaVal) (rest : List Char) :
    parseVal (serVal v ++ rest) = some (v, rest) := by
  cases v with
  | str s =>
    rw [show serVal (.str s) ++ rest = '"' :: (escape s.data ++ '"' :: rest) by
      simp [serVal, qChars]]
    rw [parseVal_quote]
    rw [show parseQuoted ('"' :: (escape s.data ++ '"' :: rest)) =
      parseQLoop [] (escape s.data ++ '"' :: rest) from rfl]
    rw [parseQLoop_escape]
    simp
  | arr vs =>
    cases vs with
    | nil =>
      rw [show serVal (.arr []) ++ rest = '[' :: ']' :: rest from rfl]
      rfl
    | cons w ws =>
      obtain ⟨t, ht⟩ := arrJoin_cons_head w ws
      have hshape : serVal (.arr (w :: ws)) ++ rest =
          '[' :: (arrJoin (w :: ws) ++ ']' :: rest) := by
        simp [serVal]
      rw [hshape, ht]
      rw [show ('"' :: t) ++ ']' :: rest = '"' :: (t ++ ']' :: rest) from rfl]
      rw [show parseVal ('[' :: '"' :: (t ++ ']' :: rest)) =
        (parseArrLoop ('"' :: (t ++ ']' :: rest)).length []
          ('"' :: (t ++ ']' :: rest))).map (fun p => (.arr p.1, p.2)) from rfl]
      rw [show ('"' :: (t ++ ']' :: rest)) = arrJoin (w :: ws) ++ ']' :: rest by
        rw [ht]; rfl]
      have hlen : (w :: ws).length ≤ (arrJoin (w :: ws) ++ ']' :: rest).length := by
        have := arrJoin_length w ws
        simp only [List.length_append, List.length_cons] at *
        omega
      rw [parseArrLoop_arrJoin ws w [] rest _ hlen]
      simp

lemma parseField_serField (kv : String × MetaVal) (rest : List Char) :
    parseField (serField kv ++ rest) = some (kv, rest) := by
  rw [show serField kv ++ rest =
    (qChars kv.1.data ++ (':' :: ' ' :: (serVal kv.2 ++ '\n' :: rest))) by
      simp [serField]]
  rw [parseField, parseQuoted_qChars]
  show (match parseVal (serVal kv.2 ++ '\n' :: rest) with
    | none => none
    | some (v, r3) =>
      match r3 with
      | '\n' :: r4 => some (((⟨kv.1.data⟩ : String), v), r4)
      | _ => none) = some (kv, rest)
  rw [parseVal_serVal]
  rfl

lemma serField_head (kv : String × MetaVal) :
    ∃ t, serField kv = '"' :: t := by
  exact ⟨(escape kv.1.data ++ ['"']) ++ ':' :: ' ' :: (serVal kv.2 ++ ['\n']), by
    simp [serField, qChars]⟩

lemma flatMap_serField_length (m : Meta) :
    m.length ≤ (m.flatMap serField).length := by
  induction m with
  | nil => simp
  | cons kv m ih =>
    obtain ⟨t, ht⟩ := serField_head kv
    simp only [List.flatMap_cons, List.length_append, List.length_cons, ht] at *
    omega

lemma decodeLoop_succ (fuel : Nat) (acc : Meta) (l : List Char) :
    decodeLoop (fuel + 1) acc l =
      match l with
      | '-' :: '-' :: '-' :: '\n' :: rest => some (acc.reverse, rest)
      | _ =>
        match parseField l with
        | none => none
        | some (f, rest) => decodeLoop fuel (f :: acc) rest := by
  rw [decodeLoop.eq_def]

lemma decodeLoop_fields : ∀ (m : Meta) (acc : Meta) (body : List Char) (fuel : Nat),
    m.length + 1 ≤ fuel →
    decodeLoop fuel acc ((m.flatMap serField) ++ (fmDelim ++ body)) =
      some (acc.reverse ++ m, body) := by
  intro m
  induction m with
  | nil =>
    intro acc body fuel hfuel
    obtain ⟨f, rfl⟩ : ∃ f, fuel = f + 1 := by
      cases fuel with
      | zero => simp at hfuel
      | succ f => exact ⟨f, rfl⟩
    rw [show ([] : Meta).flatMap serField ++ (fmDelim ++ body) =
      '-' :: '-' :: '-' :: '\n' :: body from rfl]
    rw [decodeLoop_succ]
    simp
  | cons kv m ih =>
    intro acc body fuel hfuel
    obtain ⟨f, rfl⟩ : ∃ f, fuel = f + 1 := by
      cases fuel with
      | zero => simp at hfuel
      | succ f => exact ⟨f, rfl⟩
    obtain ⟨t, ht⟩ := serField_head kv
    rw [show (kv :: m).flatMap serField ++ (fmDelim ++ body) =
      serField kv ++ (m.flatMap serField ++ (fmDelim ++ body)) by
        simp [List.flatMap_cons]]
    rw [ht]
    rw [show ('"' :: t) ++ (m.flatMap serField ++ (fmDelim ++ body)) =
      '"' :: (t ++ (m.flatMap serField ++ (fmDelim ++ body))) from rfl]
    rw [decodeLoop_succ]
    show (match parseField ('"' :: (t ++ (m.flatMap serField ++ (fmDelim ++ body)))) with
      | none => none
      | some (fd, rest) => decodeLoop f (fd :: acc) rest) =
        some (acc.reverse ++ kv :: m, body)
    rw [show ('"' :: (t ++ (m.flatMap serField ++ (fmDelim ++ body)))) =
      serField kv ++ (m.flatMap serField ++ (fmDelim ++ body)) by rw [ht]; rfl]
    rw [parseField_serField]
    show decodeLoop f (kv :: acc) (m.flatMap serField ++ (fmDelim ++ body)) =
      some (acc.reverse ++ kv :: m, body)
    rw [ih (kv :: acc) body f (by simp only [List.length_cons] at hfuel ⊢; omega)]
    simp

/-- The Note Codec round-trip law of the spec:
`decode(encode(b, m)) == (m, b)` for every body and every metadata
mapping of string / string-array values. -/
lemma decode_encode (b : String) (m : Meta) :
    decode (encode b m) = some (m, b) := by
  have hdata : (encode b m).data =
      '-' :: '-' :: '-' :: '\n' :: ((m.flatMap serField) ++ (fmDelim ++ b.data)) := by
    simp [encode, fmDelim]
  rw [decode]
  rw [hdata]
  have hlen : m.length + 1 ≤ ((m.flatMap serField) ++ (fmDelim ++ b.data)).length := by
    have := flatMap_serField_length m
    simp only [List.length_append, fmDelim, List.length_cons]
    simp only [List.length_cons, List.length_nil] at *
    omega
  show (decodeLoop ((m.flatMap serField) ++ (fmDelim ++ b.data)).length []
      ((m.flatMap serField) ++ (fmDelim ++ b.data))).map
    (fun p => (p.1, (⟨p.2⟩ : String))) = some (m, b)
  rw [decodeLoop_fields m [] b.data _ hlen]
  simp

/-! ### Association-list lookups (files and graph dicts) -/

lemma find?_key_map_set {κ ν : Type} [BEq κ] [LawfulBEq κ] (p : κ) (d : ν) :
    ∀ (st : List (κ × ν)), st.any (fun e => e.1 == p) = true →
      (st.map (fun e => if e.1 == p then (p, d) else e)).find?
        (fun e => e.1 == p) = some (p, d) := by
  intro st h
  induction st with
  | nil => simp at h
  | cons e st ih =>
    by_cases he : (e.1 == p) = true
    · rw [List.map_cons, if_pos he, List.find?_cons_of_pos _ (by simp)]
    · have h2 : st.any (fun e => e.1 == p) = true := by
        rw [List.any_cons, Bool.or_eq_true] at h
        rcases h with h3 | h3
        · exact absurd h3 he
        · exact h3
      rw [List.map_cons, if_neg he, List.find?_cons_of_neg _ (by simpa using he)]
      exact ih h2

lemma find?_key_append_new {κ ν : Type} [BEq κ] [LawfulBEq κ] (p : κ) (d : ν) :
    ∀ (st : List (κ × ν)), st.any (fun e => e.1 == p) = false →
      (st ++ [(p, d)]).find? (fun e => e.1 == p) = some (p, d) := by
  intro st h
  induction st with
  | nil => simp
  | cons e st ih =>
    have he : (e.1 == p) = false := by
      by_contra hc
      simp only [List.any_cons, Bool.or_eq_false_iff] at h
      exact hc h.1
    have h2 : st.any (fun e => e.1 == p) = false := by
      simp only [List.any_cons, Bool.or_eq_false_iff] at h
      exact h.2
    rw [List.cons_append, List.find?_cons_of_neg _ (by simpa using he)]
    exact ih h2

lemma fsLookup_upsert (st : FS) (p : List String) (d : FileData) :
    fsLookup (fsUpsert st p d) p = some d := by
  unfold fsUpsert
  by_cases h : st.any (fun e => e.1 == p) = true
  · rw [if_pos h, fsLookup, find?_key_map_set p d st h]
    rfl
  · have h2 : st.any (fun e => e.1 == p) = false := by
      rwa [Bool.not_eq_true] at h
    rw [if_neg h, fsLookup, find?_key_append_new p d st h2]
    rfl

/-! ### `write_note` then `read_note` -/

/-- The `Note` that `read_note` reconstructs from a file freshly written
by `write_note` at a dot-free relative path. -/
lemma read_after_write {root : List String} {rel : String}
    (st : FS) (content : String) (m : Meta)
    (habs : isAbsPath rel = false) (hdd : ".." ∉ pathSegs rel)
    (hne : pathSegs rel ≠ []) :
    Vault.write_note st root rel content m =
      (fsUpsert st (root ++ pathSegs rel) (.text (encode content m)),
       .ok ⟨rel, resolveTitle (metaGet m "title") (pathStem rel), content,
            buildNoteMeta m⟩) ∧
    Vault.read_note
        (fsUpsert st (root ++ pathSegs rel) (.text (encode content m))) root rel =
      .ok (some ⟨rel, resolveTitle (metaGet m "title") (pathStem rel), content,
                 buildNoteMeta m⟩) := by
  have hval := @validate_plain root rel habs hdd
  have hlook := fsLookup_upsert st (root ++ pathSegs rel) (.text (encode content m))
  have hdec := decode_encode content m
  have hstem : (⟨stemOfName (((root ++ pathSegs rel)).getLastD "").data⟩ : String) =
      pathStem rel := by
    rw [show ((root ++ pathSegs rel)).getLastD "" = (pathSegs rel).getLastD "" by
      rw [List.getLastD_eq_getLast?, List.getLastD_eq_getLast?,
        List.getLast?_append_of_ne_nil _ hne]]
    rfl
  have htl : (buildNoteMeta m).title = metaGet m "title" := rfl
  have hread : Vault.read_note
      (fsUpsert st (root ++ pathSegs rel) (.text (encode content m))) root rel =
      .ok (some ⟨rel, resolveTitle (metaGet m "title") (pathStem rel), content,
                 buildNoteMeta m⟩) := by
    rw [Vault.read_note]
    simp only [hval, hlook, hdec, htl, hstem]
  refine ⟨?_, hread⟩
  rw [Vault.write_note]
  simp only [hval, hread]

end Vault

/-!
# Claims
-/

/-- C1 counterexample: under the vault root `/a/vault`, the relative
path `../vault2/x` canonically resolves to `/a/vault2/x`, which escapes
the vault root (the root's segments are not a prefix of the
resolution), yet `_validate_path` accepts it, because
`"/a/vault2/x".startswith("/a/vault")` holds — the sibling directory
name extends the root as a *string*.  So "for every relative path whose
canonical resolution escapes the vault root, validation fails" is false
of the code. -/
theorem C1_counterexample :
    Vault.resolvedPath ["a", "vault"] "../vault2/x" = ["a", "vault2", "x"] ∧
    Vault.segUnder ["a", "vault"] ["a", "vault2", "x"] = false ∧
    Vault.validate ["a", "vault"] "../vault2/x" = some ["a", "vault2", "x"] := by
  decide

/-- C1 amended: validation accepts exactly the paths whose rendered
canonical resolution extends the rendered vault root as a string.  In
particular (i) every resolution genuinely under the root (segmentwise)
is accepted, (ii) every path whose rendered resolution fails the
string-prefix test is rejected with `PathTraversal`, regardless of `..`
count or position, and (iii) the empty string resolves to the vault
root itself and is valid.  (A resolution escaping to a sibling
directory whose name extends the root's name passes — the
counterexample.) -/
theorem C1_validate_startswith (root : List String) (rel : String) :
    (Vault.segUnder root (Vault.resolvedPath root rel) = true →
      (Vault.validate root rel).isSome = true) ∧
    (Vault.pyStarts (Vault.renderAbs (Vault.resolvedPath root rel))
        (Vault.renderAbs root) = false → Vault.validate root rel = none) ∧
    Vault.validate root "" = some root := by
  refine ⟨fun h => ?_, fun h => ?_, ?_⟩
  · simp [Vault.validate, Vault.segUnder_pyStarts h]
  · simp [Vault.validate, h]
  · have h1 : Vault.pathSegs "" = [] := by decide
    have h2 : Vault.isAbsPath "" = false := by decide
    simp [Vault.validate, Vault.resolvedPath, h1, h2, Vault.resolveSegs,
      Vault.pyStarts_self]

/-- C1 witness: the amended theorem at concrete inputs — a contained
path accepted, an escaping non-prefix path rejected, the empty path
valid. -/
theorem C1_witness :
    (Vault.validate ["a", "vault"] "notes/x.md").isSome = true ∧
    Vault.validate ["a", "vault"] "../../etc/passwd" = none ∧
    Vault.validate ["a", "vault"] "" = some ["a", "vault"] :=
  ⟨(C1_validate_startswith ["a", "vault"] "notes/x.md").1 (by decide),
   (C1_validate_startswith ["a", "vault"] "../../etc/passwd").2.1 (by decide),
   (C1_validate_startswith ["a", "vault"] "x").2.2⟩

/-- C2 counterexample: write with the metadata title `""` (a supplied
string value), then read.  Python's `meta.title or abs_path.stem`
treats the empty string as falsy, so the returned note's title is the
filename stem `"n"`, not the supplied metadata title `""` — the claim's
"title equals the supplied metadata title" fails at this input. -/
theorem C2_counterexample :
    (Vault.write_note [] ["v"] "n.md" "B" [("title", .str "")]).2 =
      .ok ⟨"n.md", "n", "B", ⟨.arr [], .arr [], none, none, some (.str ""), []⟩⟩ ∧
    ("n" : String) ≠ "" := by decide

/-- C2 amended: the codec round-trip law `decode(encode(b, m)) == (m, b)`
holds for every body and every string/string-array metadata mapping,
and for every dot-free relative path, `write` followed by `read`
returns the note with the body unchanged and the title equal to the
supplied metadata title when that title is a non-empty string — an
absent (or empty, by the counterexample) title falls back to the
filename stem. -/
theorem C2_write_read_roundtrip (st : Vault.FS) (root : List String)
    (rel content : String) (m : Vault.Meta)
    (habs : Vault.isAbsPath rel = false) (hdd : ".." ∉ Vault.pathSegs rel)
    (hne : Vault.pathSegs rel ≠ [])
    (htitle : Vault.metaGet m "title" = none ∨
      ∃ s, Vault.metaGet m "title" = some (.str s) ∧ s ≠ "") :
    (∀ (b : String) (m2 : Vault.Meta),
      Vault.decode (Vault.encode b m2) = some (m2, b)) ∧
    ∃ n : Vault.Note,
      (Vault.write_note st root rel content m).2 = .ok n ∧
      Vault.read_note (Vault.write_note st root rel content m).1 root rel =
        .ok (some n) ∧
      n.content = content ∧
      n.frontmatter = Vault.buildNoteMeta m ∧
      n.title = (match Vault.metaGet m "title" with
                 | some (Vault.MetaVal.str s) => s
                 | _ => Vault.pathStem rel) := by
  obtain ⟨hw, hr⟩ := @Vault.read_after_write root rel st content m habs hdd hne
  refine ⟨fun b m2 => Vault.decode_encode b m2,
    ⟨Vault.Note.mk rel (Vault.resolveTitle (Vault.metaGet m "title")
        (Vault.pathStem rel)) content (Vault.buildNoteMeta m), ?_, ?_, rfl, rfl, ?_⟩⟩
  · rw [hw]
  · rw [hw, hr]
  · rcases htitle with h | ⟨s, hs, hne2⟩
    · rw [h]
      rfl
    · rw [hs]
      show (if s = "" then Vault.pathStem rel else s) = s
      rw [if_neg hne2]

/-- C2 witness: the amended theorem at a concrete vault — write a body
under `Projects/n.md` with the title `"T"`, read it back, and observe
the body and the title. -/
theorem C2_witness :
    ∃ n : Vault.Note,
      (Vault.write_note [] ["v"] "Projects/n.md" "B"
        [("title", .str "T"), ("k", .arr ["x"])]).2 = .ok n ∧
      Vault.read_note (Vault.write_note [] ["v"] "Projects/n.md" "B"
        [("title", .str "T"), ("k", .arr ["x"])]).1 ["v"] "Projects/n.md" =
        .ok (some n) ∧
      n.content = "B" ∧ n.title = "T" := by
  obtain ⟨-, n, h1, h2, h3, -, h5⟩ := C2_write_read_roundtrip [] ["v"]
    "Projects/n.md" "B" [("title", .str "T"), ("k", .arr ["x"])]
    (by decide) (by decide) (by decide)
    (Or.inr ⟨"T", by decide, by decide⟩)
  exact ⟨n, h1, h2, h3, h5.trans (by decide)⟩

/-- C3: `read_note` at each failure class, on concrete vaults.  A
missing target, a directory target and malformed metadata are reported
as absent (`None`), but a non-UTF-8 file raises `UnicodeDecodeError`,
which IS a `ValueError` in Python's exception hierarchy, so the
`except ValueError: raise` clause written for path traversal re-raises
it: that decode failure propagates to the caller and would abort a
corpus scan, contradicting the claim (and the spec's stated intent of
uniform local recovery) — the code bug. -/
theorem C3_unreadable_encoding_propagates :
    Vault.read_note [] ["v"] "missing.md" = .ok none ∧
    Vault.read_note [(["v", "d", "x.md"], .text "hi")] ["v"] "d" = .ok none ∧
    Vault.read_note [(["v", "bad.md"], .text "---\nbroken")] ["v"] "bad.md" =
      .ok none ∧
    Vault.read_note [(["v", "bad.md"], .binary)] ["v"] "bad.md" =
      .error .unicodeDecodeError ∧
    Vault.PyErr.isValueError .unicodeDecodeError = true := by decide

namespace Vault

lemma mkScore_eq_div (terms : List String) (n : Note) :
    mkScore terms n =
      min 1 ((((titleMatches terms n * 2 + contentMatches terms n : ℕ)) : ℚ) /
        (((terms.length * 3 : ℕ)) : ℚ)) := by
  rw [mkScore, Rat.mkRat_eq_div, min_comm]
  norm_num

lemma mem_scoreList {corpus : List Note} {terms : List String} {r : SearchResult}
    (h : r ∈ scoreList corpus terms) :
    r.score = mkScore terms r.note ∧ r.note ∈ corpus := by
  rw [scoreList, List.mem_filterMap] at h
  obtain ⟨n, hn, heq⟩ := h
  by_cases hc : (titleMatches terms n == 0 && contentMatches terms n == 0) = true
  · rw [if_pos hc] at heq
    cases heq
  · rw [if_neg hc] at heq
    cases heq
    exact ⟨rfl, hn⟩

lemma scoreList_nil (corpus : List Note) : scoreList corpus [] = [] := by
  rw [scoreList]
  refine List.filterMap_eq_nil_iff.mpr fun n _ => ?_
  simp [titleMatches, contentMatches]

end Vault

/-- C4: every returned search result's score is
`min(1.0, (2*titleMatches + contentMatches) / (3*termCount))`, the
result list is sorted descending by score, it is truncated to at most
`maxResults` entries, and an empty query (zero terms) yields zero
results. -/
theorem C4_search_spec (corpus : List Vault.Note) (query : String) (k : Nat) :
    (∀ r ∈ Vault.search_notes corpus query k,
      r.score = min 1
        ((((Vault.titleMatches (Vault.queryTerms query) r.note * 2 +
            Vault.contentMatches (Vault.queryTerms query) r.note : ℕ)) : ℚ) /
          ((((Vault.queryTerms query).length * 3 : ℕ)) : ℚ))) ∧
    List.Sorted Vault.byScore (Vault.search_notes corpus query k) ∧
    (Vault.search_notes corpus query k).length ≤ k ∧
    (Vault.queryTerms query = [] → Vault.search_notes corpus query k = []) := by
  refine ⟨?_, ?_, ?_, ?_⟩
  · intro r hr
    have hr2 : r ∈ (Vault.scoreList corpus (Vault.queryTerms query)).insertionSort
        Vault.byScore := List.take_subset _ _ hr
    have hr3 : r ∈ Vault.scoreList corpus (Vault.queryTerms query) :=
      (List.perm_insertionSort Vault.byScore _).subset hr2
    obtain ⟨hs, -⟩ := Vault.mem_scoreList hr3
    rw [hs, Vault.mkScore_eq_div]
  · exact List.Pairwise.sublist (List.take_sublist _ _)
      (List.sorted_insertionSort Vault.byScore _)
  · exact List.length_take_le _ _
  · intro h
    rw [Vault.search_notes, h, Vault.scoreList_nil]
    simp

/-- C4 witness: the theorem at concrete inputs — an empty query yields
no results, `maxResults = 1` truncates, and the single match's score is
the claimed formula. -/
theorem C4_witness :
    Vault.search_notes [] "" 5 = [] ∧
    (Vault.search_notes
      [⟨"b.md", "T", "one", ⟨.arr [], .arr [], none, none, none, []⟩⟩]
      "one" 1).length ≤ 1 ∧
    (⟨⟨"b.md", "T", "one", ⟨.arr [], .arr [], none, none, none, []⟩⟩, mkRat 1 3,
        ["one"]⟩ : Vault.SearchResult).score =
      min 1
        ((((Vault.titleMatches (Vault.queryTerms "one")
              ⟨"b.md", "T", "one", ⟨.arr [], .arr [], none, none, none, []⟩⟩ * 2 +
            Vault.contentMatches (Vault.queryTerms "one")
              ⟨"b.md", "T", "one", ⟨.arr [], .arr [], none, none, none, []⟩⟩ : ℕ)) : ℚ) /
          ((((Vault.queryTerms "one").length * 3 : ℕ)) : ℚ)) :=
  ⟨(C4_search_spec [] "" 5).2.2.2 (by decide),
   (C4_search_spec [⟨"b.md", "T", "one", ⟨.arr [], .arr [], none, none, none, []⟩⟩]
      "one" 1).2.2.1,
   (C4_search_spec [⟨"b.md", "T", "one", ⟨.arr [], .arr [], none, none, none, []⟩⟩]
      "one" 10).1 _ (by decide)⟩

namespace Vault

lemma filterMap_ite {α β : Type} (p : α → Bool) (f : α → β) (l : List α) :
    l.filterMap (fun a => if p a then some (f a) else none) =
      (l.filter p).map f := by
  induction l with
  | nil => rfl
  | cons a l ih =>
    by_cases h : p a = true
    · simp only [List.filterMap_cons, List.filter_cons, h, if_pos, List.map_cons]
      rw [ih]
    · simp only [List.filterMap_cons, List.filter_cons, h, if_neg, Bool.false_eq_true,
        not_false_eq_true, if_false]
      rw [ih]

end Vault

/-- C5: `get_backlinks` records at most one `(name, path)` record per
source note — the result is the map of a sublist of the corpus, in
corpus scan order, each qualifying note contributing exactly its
`(title, path)` once (the inner loop breaks at the first matching
link) — and the function is case-insensitive in its argument: names
with equal lowercasings give equal (hence equal-length) results. -/
theorem C5_backlinks_spec (corpus : List Vault.Note) (n1 n2 : String)
    (h : Vault.pyLower n1 = Vault.pyLower n2) :
    (∃ sub : List Vault.Note, List.Sublist sub corpus ∧
      Vault.get_backlinks corpus n1 = sub.map (fun n => (n.title, n.path))) ∧
    Vault.get_backlinks corpus n1 = Vault.get_backlinks corpus n2 ∧
    (Vault.get_backlinks corpus n1).length =
      (Vault.get_backlinks corpus n2).length := by
  have heq : Vault.get_backlinks corpus n1 = Vault.get_backlinks corpus n2 := by
    rw [Vault.get_backlinks, Vault.get_backlinks, h]
  refine ⟨⟨corpus.filter (fun n => Vault.linksToName n (Vault.pyLower n1)),
    List.filter_sublist _, ?_⟩, heq, by rw [heq]⟩
  rw [Vault.get_backlinks]
  exact Vault.filterMap_ite _ _ corpus

/-- C5 witness: on a two-note corpus, querying `"NOTE1"` and `"note1"`
gives the same single backlink record, a mapped sublist of the corpus. -/
theorem C5_witness :
    (∃ sub : List Vault.Note,
      List.Sublist sub
        [⟨"note1.md", "Note One", "see [[note2]]",
          ⟨.arr [], .arr [], none, none, none, []⟩⟩,
         ⟨"note2.md", "Note Two", "[[NOTE1]] b [[note1]]",
          ⟨.arr [], .arr [], none, none, none, []⟩⟩] ∧
      Vault.get_backlinks
        [⟨"note1.md", "Note One", "see [[note2]]",
          ⟨.arr [], .arr [], none, none, none, []⟩⟩,
         ⟨"note2.md", "Note Two", "[[NOTE1]] b [[note1]]",
          ⟨.arr [], .arr [], none, none, none, []⟩⟩] "NOTE1" =
        sub.map (fun n => (n.title, n.path))) ∧
    Vault.get_backlinks
      [⟨"note1.md", "Note One", "see [[note2]]",
        ⟨.arr [], .arr [], none, none, none, []⟩⟩,
       ⟨"note2.md", "Note Two", "[[NOTE1]] b [[note1]]",
        ⟨.arr [], .arr [], none, none, none, []⟩⟩] "NOTE1" =
      Vault.get_backlinks
        [⟨"note1.md", "Note One", "see [[note2]]",
          ⟨.arr [], .arr [], none, none, none, []⟩⟩,
         ⟨"note2.md", "Note Two", "[[NOTE1]] b [[note1]]",
          ⟨.arr [], .arr [], none, none, none, []⟩⟩] "note1" ∧
    (Vault.get_backlinks
      [⟨"note1.md", "Note One", "see [[note2]]",
        ⟨.arr [], .arr [], none, none, none, []⟩⟩,
       ⟨"note2.md", "Note Two", "[[NOTE1]] b [[note1]]",
        ⟨.arr [], .arr [], none, none, none, []⟩⟩] "NOTE1").length =
      (Vault.get_backlinks
        [⟨"note1.md", "Note One", "see [[note2]]",
          ⟨.arr [], .arr [], none, none, none, []⟩⟩,
         ⟨"note2.md", "Note Two", "[[NOTE1]] b [[note1]]",
          ⟨.arr [], .arr [], none, none, none, []⟩⟩] "note1").length :=
  C5_backlinks_spec _ "NOTE1" "note1" (by decide)

/-- C6: `get_outgoing_links` — a missing source note yields the empty
result; every link whose target resolves (case-insensitively, against
the listed stems) contributes `(link.target, resolvedPath)` with the
target's original casing; a link whose target resolves to no existing
note contributes nothing; and every returned record comes from a link
of the source note with its resolved path. -/
theorem C6_outgoing_spec (files : Vault.RelFS) (rel : String) :
    (Vault.readRel files rel = none → Vault.get_outgoing_links files rel = []) ∧
    (∀ note, Vault.readRel files rel = some note →
      (∀ l ∈ Vault.extract_wikilinks note.content,
        (∀ p, Vault.find_note_by_name files l.target = some p →
          (l.target, p) ∈ Vault.get_outgoing_links files rel) ∧
        (Vault.find_note_by_name files l.target = none →
          ∀ p, (l.target, p) ∉ Vault.get_outgoing_links files rel)) ∧
      (∀ e ∈ Vault.get_outgoing_links files rel,
        Vault.find_note_by_name files e.1 = some e.2 ∧
        ∃ l ∈ Vault.extract_wikilinks note.content, e.1 = l.target)) := by
  constructor
  · intro h
    rw [Vault.get_outgoing_links, h]
  · intro note hnote
    constructor
    · intro l hl
      constructor
      · intro p hp
        rw [Vault.get_outgoing_links, hnote]
        exact List.mem_filterMap.mpr ⟨l, hl, by rw [hp]; rfl⟩
      · intro hnone p hmem
        rw [Vault.get_outgoing_links, hnote] at hmem
        obtain ⟨l2, hl2, heq⟩ := List.mem_filterMap.mp hmem
        cases hfind : Vault.find_note_by_name files l2.target with
        | none =>
          rw [hfind] at heq
          cases heq
        | some q =>
          rw [hfind] at heq
          have h1 : l2.target = l.target :=
            congrArg Prod.fst (Option.some.inj heq)
          rw [h1] at hfind
          rw [hnone] at hfind
          cases hfind
    · intro e he
      rw [Vault.get_outgoing_links, hnote] at he
      obtain ⟨l2, hl2, heq⟩ := List.mem_filterMap.mp he
      cases hfind : Vault.find_note_by_name files l2.target with
      | none =>
        rw [hfind] at heq
        cases heq
      | some q =>
        rw [hfind] at heq
        have h1 : (l2.target, q) = e := Option.some.inj heq
        subst h1
        exact ⟨hfind, ⟨l2, hl2, rfl⟩⟩

/-- C6 witness: on a concrete two-file vault, the note linking to `b`
and to the nonexistent `ghost` yields exactly the resolved `b` record,
obtained through the theorem. -/
theorem C6_witness :
    Vault.get_outgoing_links [("a.md", "[[b]] [[ghost]]"), ("b.md", "")] "a.md" =
      [("b", "b.md")] ∧
    ("b", ("b.md" : String)) ∈ Vault.get_outgoing_links
      [("a.md", "[[b]] [[ghost]]"), ("b.md", "")] "a.md" := by
  refine ⟨by decide, ?_⟩
  have h := (C6_outgoing_spec [("a.md", "[[b]] [[ghost]]"), ("b.md", "")] "a.md").2
    ⟨"a.md", "a", "[[b]] [[ghost]]", ⟨.arr [], .arr [], none, none, none, []⟩⟩
    (by decide)
  exact (h.1 ⟨"[[b]]", "b", none, none⟩ (by decide)).1 "b.md" (by decide)

/-- C7: `extract_wikilinks` on the spec's example yields exactly four
links, in document order, with targets A,B,C,D, heading set only for B
and D, alias set only for C and D; inputs without markup yield the
empty sequence; duplicates are preserved; captured substrings are
whitespace-trimmed.  (Totality — "never fails" — holds by construction:
the extractor is a total function.) -/
theorem C7_extract_wikilinks_spec :
    Vault.extract_wikilinks "[[A]] [[B#H]] [[C|X]] [[D#H|X]]" =
      [⟨"[[A]]", "A", none, none⟩, ⟨"[[B#H]]", "B", some "H", none⟩,
       ⟨"[[C|X]]", "C", none, some "X"⟩,
       ⟨"[[D#H|X]]", "D", some "H", some "X"⟩] ∧
    Vault.extract_wikilinks "" = [] ∧
    Vault.extract_wikilinks "plain text, no markup" = [] ∧
    Vault.extract_wikilinks "[[dup]] [[dup]]" =
      [⟨"[[dup]]", "dup", none, none⟩, ⟨"[[dup]]", "dup", none, none⟩] ∧
    Vault.extract_wikilinks "[[ sp #  h | a ]]" =
      [⟨"[[ sp #  h | a ]]", "sp", some "h", some "a"⟩] := by decide

/-- C10: `write_note` and `delete_note` validate the path before any
side effect, so a `PathTraversal` rejection returns the vault state
unchanged: no directories created, no file written, no file removed. -/
theorem C10_traversal_no_side_effect (st : Vault.FS) (root : List String)
    (rel : String) (content : String) (m : Vault.Meta)
    (h : Vault.validate root rel = none) :
    Vault.write_note st root rel content m = (st, .error .pathTraversal) ∧
    Vault.delete_note st root rel = (st, .error .pathTraversal) := by
  constructor
  · simp [Vault.write_note, h]
  · simp [Vault.delete_note, h]

/-- C10 witness: a traversal path on a one-file vault leaves the state
untouched for both operations. -/
theorem C10_witness :
    Vault.write_note [(["v", "a.md"], .text "x")] ["v"] "../escape.md" "B" [] =
      ([(["v", "a.md"], .text "x")], .error .pathTraversal) ∧
    Vault.delete_note [(["v", "a.md"], .text "x")] ["v"] "../escape.md" =
      ([(["v", "a.md"], .text "x")], .error .pathTraversal) :=
  C10_traversal_no_side_effect [(["v", "a.md"], .text "x")] ["v"] "../escape.md"
    "B" [] (by decide)

/-!
# Batch graph lemmas (C8, C9)
-/

namespace Vault

lemma find?_cons_key_pos {κ ν : Type} [BEq κ] (q : κ) (e : κ × ν)
    (st : List (κ × ν)) (h : (e.1 == q) = true) :
    (e :: st).find? (fun x => x.1 == q) = some e :=
  List.find?_cons_of_pos st h

lemma find?_cons_key_neg {κ ν : Type} [BEq κ] (q : κ) (e : κ × ν)
    (st : List (κ × ν)) (h : (e.1 == q) = false) :
    (e :: st).find? (fun x => x.1 == q) = st.find? (fun x => x.1 == q) :=
  List.find?_cons_of_neg st (by simp [h])

lemma find?_key_map_set_other {κ ν : Type} [BEq κ] [LawfulBEq κ] (p : κ) (d : ν)
    (q : κ) (h : q ≠ p) : ∀ (st : List (κ × ν)),
      (st.map (fun e => if e.1 == p then (p, d) else e)).find?
        (fun e => e.1 == q) = st.find? (fun e => e.1 == q) := by
  intro st
  induction st with
  | nil => rfl
  | cons e st ih =>
    by_cases he : (e.1 == p) = true
    · have hep : e.1 = p := eq_of_beq he
      rw [List.map_cons, if_pos he,
        find?_cons_key_neg q (p, d) _
          (by simp only [beq_eq_false_iff_ne]; exact Ne.symm h),
        find?_cons_key_neg q e _
          (by simp only [beq_eq_false_iff_ne]; rw [hep]; exact Ne.symm h)]
      exact ih
    · rw [List.map_cons, if_neg he]
      by_cases heq : (e.1 == q) = true
      · rw [find?_cons_key_pos q e _ heq, find?_cons_key_pos q e _ heq]
      · rw [find?_cons_key_neg q e _ (by rwa [Bool.not_eq_true] at heq),
          find?_cons_key_neg q e _ (by rwa [Bool.not_eq_true] at heq)]
        exact ih

lemma find?_key_append_other {κ ν : Type} [BEq κ] [LawfulBEq κ] (p : κ) (d : ν)
    (q : κ) (h : q ≠ p) (st : List (κ × ν)) :
    (st ++ [(p, d)]).find? (fun e => e.1 == q) =
      st.find? (fun e => e.1 == q) := by
  rw [List.find?_append]
  cases hf : st.find? (fun e => e.1 == q) with
  | some f => rfl
  | none =>
    have hpq : (p == q) = false := beq_eq_false_iff_ne.mpr (Ne.symm h)
    rw [Option.none_or, find?_cons_key_neg q (p, d) [] hpq]
    rfl

lemma brLookup_insert_self (g : BRGraph) (k : String) (v : BRData) :
    brLookup (brInsert g k v) k = some v := by
  unfold brInsert
  by_cases h : g.any (fun e => e.1 == k) = true
  · rw [if_pos h, brLookup, find?_key_map_set k v g h]
    rfl
  · have h2 : g.any (fun e => e.1 == k) = false := by
      rwa [Bool.not_eq_true] at h
    rw [if_neg h, brLookup, find?_key_append_new k v g h2]
    rfl

lemma brLookup_insert_other (g : BRGraph) (k : String) (v : BRData) (q : String)
    (h : q ≠ k) : brLookup (brInsert g k v) q = brLookup g q := by
  unfold brInsert
  by_cases hany : g.any (fun e => e.1 == k) = true
  · rw [if_pos hany, brLookup, find?_key_map_set_other k v q h g]
    rfl
  · rw [if_neg hany, brLookup, find?_key_append_other k v q h g]
    rfl

/-- The entry pass 1 makes for one file. -/
def brEntry (f : String × String) : BRData :=
  ⟨f.1, br_extract_wikilinks f.2, []⟩

lemma find?_cons_stem_pos (k : String) (f : String × String) (fs : RelFS)
    (h : (pathStem f.1 == k) = true) :
    (f :: fs).find? (fun x => pathStem x.1 == k) = some f :=
  List.find?_cons_of_pos fs h

lemma find?_cons_stem_neg (k : String) (f : String × String) (fs : RelFS)
    (h : (pathStem f.1 == k) = false) :
    (f :: fs).find? (fun x => pathStem x.1 == k) =
      fs.find? (fun x => pathStem x.1 == k) :=
  List.find?_cons_of_neg fs (by simp [h])

lemma pass1_fold_lookup (k : String) :
    ∀ (fs : RelFS) (g : BRGraph),
      brLookup (fs.foldl (fun g f => brInsert g (pathStem f.1)
          ⟨f.1, br_extract_wikilinks f.2, []⟩) g) k =
        (match fs.reverse.find? (fun f => pathStem f.1 == k) with
         | some f => some (brEntry f)
         | none => brLookup g k) := by
  intro fs
  induction fs with
  | nil => intro g; simp
  | cons f fs ih =>
    intro g
    rw [List.foldl_cons, ih, List.reverse_cons, List.find?_append]
    cases hfind : fs.reverse.find? (fun f => pathStem f.1 == k) with
    | some f2 => rfl
    | none =>
      rw [Option.none_or]
      by_cases hk : (pathStem f.1 == k) = true
      · rw [find?_cons_stem_pos k f [] hk]
        have hstem : pathStem f.1 = k := eq_of_beq hk
        rw [← hstem, brLookup_insert_self]
        rfl
      · rw [find?_cons_stem_neg k f [] (by rwa [Bool.not_eq_true] at hk)]
        exact brLookup_insert_other g (pathStem f.1) _ k
          (fun hc => hk (by rw [hc]; exact beq_self_eq_true _))

lemma scan_pass1_lookup (files : RelFS) (k : String) :
    brLookup (scan_pass1 files) k =
      (match (eligible files).reverse.find? (fun f => pathStem f.1 == k) with
       | some f => some (brEntry f)
       | none => none) := by
  rw [scan_pass1, pass1_fold_lookup k (eligible files) []]
  rfl

lemma find?_map_keep_keys {κ ν : Type} [BEq κ] (F : κ × ν → κ × ν)
    (hkey : ∀ e, (F e).1 = e.1) (q : κ) :
    ∀ st : List (κ × ν), (st.map F).find? (fun e => e.1 == q) =
      (st.find? (fun e => e.1 == q)).map F := by
  intro st
  induction st with
  | nil => rfl
  | cons e st ih =>
    by_cases hq : (e.1 == q) = true
    · rw [List.map_cons, find?_cons_key_pos q (F e) _ (by rw [hkey]; exact hq),
        find?_cons_key_pos q e _ hq]
      rfl
    · rw [List.map_cons,
        find?_cons_key_neg q (F e) _
          (by rw [hkey]; rwa [Bool.not_eq_true] at hq),
        find?_cons_key_neg q e _ (by rwa [Bool.not_eq_true] at hq), ih]

lemma brAppend_lookup_proj (g : BRGraph) (kk src k : String) :
    (brLookup (brAppendBacklink g kk src) k).map (fun d => (d.path, d.outgoing)) =
      (brLookup g k).map (fun d => (d.path, d.outgoing)) := by
  have hkey : ∀ e : String × BRData,
      ((if e.1 == kk then
          (e.1, (⟨e.2.path, e.2.outgoing, e.2.backlinks ++ [src]⟩ : BRData))
        else e)).1 = e.1 := by
    intro e
    by_cases he : (e.1 == kk) = true
    · rw [if_pos he]
    · rw [if_neg he]
  rw [brAppendBacklink, brLookup,
    find?_map_keep_keys (fun e => if e.1 == kk then
      (e.1, (⟨e.2.path, e.2.outgoing, e.2.backlinks ++ [src]⟩ : BRData)) else e)
      hkey k g]
  cases hf : g.find? (fun e => e.1 == k) with
  | none =>
    rw [brLookup, hf]
    rfl
  | some e =>
    rw [brLookup, hf]
    by_cases he : (e.1 == kk) = true
    · simp only [Option.map_some', if_pos he]
    · simp only [Option.map_some', if_neg he]

lemma brStep_lookup_proj (g : BRGraph) (p : String × String) (k : String) :
    (brLookup (brStep g p) k).map (fun d => (d.path, d.outgoing)) =
      (brLookup g k).map (fun d => (d.path, d.outgoing)) := by
  rw [brStep]
  cases hf : brFindKey g p.2 with
  | some kk => exact brAppend_lookup_proj g kk p.1 k
  | none => rfl

lemma foldl_brStep_lookup_proj :
    ∀ (pairs : List (String × String)) (g : BRGraph) (k : String),
      (brLookup (pairs.foldl brStep g) k).map (fun d => (d.path, d.outgoing)) =
        (brLookup g k).map (fun d => (d.path, d.outgoing)) := by
  intro pairs
  induction pairs with
  | nil => intro g k; rfl
  | cons p pairs ih =>
    intro g k
    rw [List.foldl_cons, ih, brStep_lookup_proj]

lemma pass2_lookup_proj (g : BRGraph) (k : String) :
    (brLookup (scan_pass2 g) k).map (fun d => (d.path, d.outgoing)) =
      (brLookup g k).map (fun d => (d.path, d.outgoing)) := by
  rw [scan_pass2, foldl_brStep_lookup_proj]

end Vault

/-- C8 counterexample: two notes whose stems differ only in case,
`Note.md` and `note.md`, produce two distinct coexisting graph keys
`"Note"` and `"note"` — the map is keyed by the original-casing stem,
`"Note"` is not lowercased, and nothing is overwritten, refuting
"keys … by its lowercased filename stem, so two notes whose stems
differ only in case collide and the later overwrites the earlier". -/
theorem C8_counterexample :
    (Vault.scan_vault [("Note.md", "x"), ("note.md", "y")]).map (fun e => e.1) =
      ["Note", "note"] ∧
    ("Note" : String) ≠ Vault.pyLower "Note" ∧
    (Vault.scan_vault [("Note.md", "x"), ("note.md", "y")]).length = 2 := by
  decide

/-- C8 amended: the batch graph is keyed by the original-casing
filename stem: a key has an entry iff some eligible file has exactly
that stem, and the entry's path is that of the LAST-scanned file with
that exact stem (identical stems overwrite, later wins); stems
differing only in case get distinct coexisting keys. -/
theorem C8_graph_keys (files : Vault.RelFS) (k : String) :
    ((Vault.brLookup (Vault.scan_vault files) k).isSome = true ↔
      ∃ f ∈ Vault.eligible files, Vault.pathStem f.1 = k) ∧
    (∀ d, Vault.brLookup (Vault.scan_vault files) k = some d →
      ∃ f, (Vault.eligible files).reverse.find?
          (fun f => Vault.pathStem f.1 == k) = some f ∧ d.path = f.1) := by
  have hproj := Vault.pass2_lookup_proj (Vault.scan_pass1 files) k
  have hp1 := Vault.scan_pass1_lookup files k
  have hsome : (Vault.brLookup (Vault.scan_vault files) k).isSome =
      (Vault.brLookup (Vault.scan_pass1 files) k).isSome := by
    have h2 := congrArg Option.isSome hproj
    simpa [Vault.scan_vault] using h2
  constructor
  · rw [hsome, hp1]
    cases hfind : (Vault.eligible files).reverse.find?
        (fun f => Vault.pathStem f.1 == k) with
    | some f =>
      simp only [Option.isSome_some, true_iff]
      refine ⟨f, ?_, ?_⟩
      · have := List.mem_of_find?_eq_some hfind
        exact List.mem_reverse.mp this
      · have hpf := List.find?_some hfind
        exact eq_of_beq hpf
    | none =>
      simp only [Option.isSome_none, Bool.false_eq_true, false_iff]
      rintro ⟨f, hf, hstem⟩
      have := List.find?_eq_none.mp hfind f (List.mem_reverse.mpr hf)
      rw [hstem] at this
      exact this (beq_self_eq_true k)
  · intro d hd
    rw [Vault.scan_vault] at hd
    have hpath := hproj
    rw [hd, hp1] at hpath
    cases hfind : (Vault.eligible files).reverse.find?
        (fun f => Vault.pathStem f.1 == k) with
    | some f =>
      rw [hfind] at hpath
      refine ⟨f, rfl, ?_⟩
      have := congrArg (fun o => o.map Prod.fst) hpath
      simpa [Vault.brEntry] using this
    | none =>
      rw [hfind] at hpath
      cases hpath


/-- C8 witness: on `a/N.md` and `b/N.md` (identical stems), the key
`"N"` exists and its entry holds the later-scanned path `b/N.md`. -/
theorem C8_witness :
    (Vault.brLookup (Vault.scan_vault [("a/N.md", "x"), ("b/N.md", "y")])
      "N").isSome = true ∧
    ∃ f, (Vault.eligible [("a/N.md", "x"), ("b/N.md", "y")]).reverse.find?
        (fun f => Vault.pathStem f.1 == "N") = some f ∧
      (⟨"b/N.md", [], []⟩ : Vault.BRData).path = f.1 :=
  ⟨(C8_graph_keys [("a/N.md", "x"), ("b/N.md", "y")] "N").1.mpr
      ⟨("a/N.md", "x"), by decide, by decide⟩,
   (C8_graph_keys [("a/N.md", "x"), ("b/N.md", "y")] "N").2
      ⟨"b/N.md", [], []⟩ (by decide)⟩

/-!
# C9: per-query versus batch backlink strategies
-/

/-- C9 counterexample: on the corpus `{a.md ↦ "[[ghost]]"}` and query
`"ghost"` (a name matching no existing note), `VaultManager.get_backlinks`
returns the linking note while `BacklinkResolver.get_backlinks` returns
the empty list — the two strategies do not return the same sequence of
records. -/
theorem C9_counterexample :
    Vault.vm_get_backlinks [("a.md", "[[ghost]]")] "ghost" = [("a", "a.md")] ∧
    Vault.br_get_backlinks [("a.md", "[[ghost]]")] "ghost" = [] ∧
    ([(("a" : String), ("a.md" : String))] : List (String × String)) ≠ [] := by
  decide

namespace Vault

lemma any_map_own {α β : Type} (g : α → β) (p : β → Bool) :
    ∀ l : List α, (l.map g).any p = l.any (fun a => p (g a)) := by
  intro l
  induction l with
  | nil => rfl
  | cons a l ih => rw [List.map_cons, List.any_cons, List.any_cons, ih]

/-- `filterMap` of an everywhere-`some` function is a `map`. -/
lemma filterMap_eq_map_of_some {α β : Type} {l : List α} {g : α → Option β}
    {h : α → β} (H : ∀ a ∈ l, g a = some (h a)) : l.filterMap g = l.map h := by
  induction l with
  | nil => rfl
  | cons a l ih =>
    rw [List.filterMap_cons, H a (List.mem_cons_self a l)]
    rw [List.map_cons, ih (fun b hb => H b (List.mem_cons_of_mem a hb))]

lemma list_notes_sorted (files : RelFS)
    (hsort : List.Sorted pathLeP ((eligible files).map (fun f => f.1))) :
    list_notes files = (eligible files).map (fun f => f.1) := by
  rw [list_notes]
  exact List.Sorted.insertionSort_eq hsort

/-- With case-insensitively unique stems, an eligible file is the first
(and only) entry at its own path. -/
lemma relLookup_eligible {files : RelFS}
    (huniq : ((eligible files).map (fun f => pyLower (pathStem f.1))).Nodup) :
    ∀ f ∈ eligible files, relLookup files f.1 = some f.2 := by
  intro f hf
  have hmemfiles : f ∈ files := List.mem_of_mem_filter hf
  cases hfind : files.find? (fun e => e.1 == f.1) with
  | none =>
    have := List.find?_eq_none.mp hfind f hmemfiles
    exact absurd (beq_self_eq_true f.1) this
  | some e =>
    have hpe := List.find?_some hfind
    have hee : e.1 = f.1 := eq_of_beq hpe
    have hememfiles : e ∈ files := List.mem_of_find?_eq_some hfind
    have hem : e ∈ eligible files := by
      rw [eligible, List.mem_filter]
      refine ⟨hememfiles, ?_⟩
      have hfm := (List.mem_filter.mp hf).2
      rw [hee]
      exact hfm
    have hef : e = f := by
      apply List.inj_on_of_nodup_map huniq hem hf
      rw [hee]
    rw [relLookup, hfind, hef]
    rfl

/-- The `Note` a frontmatter-free file reads as: title is the stem,
content is the raw text, metadata is all defaults. -/
def plainNote (f : String × String) : Note :=
  ⟨f.1, pathStem f.1, f.2, ⟨.arr [], .arr [], none, none, none, []⟩⟩

lemma readRel_eligible {files : RelFS}
    (huniq : ((eligible files).map (fun f => pyLower (pathStem f.1))).Nodup)
    (hplain : ∀ f ∈ files, decode f.2 = some ([], f.2)) :
    ∀ f ∈ eligible files, readRel files f.1 = some (plainNote f) := by
  intro f hf
  rw [readRel, relLookup_eligible huniq f hf, Option.some_bind,
    hplain f (List.mem_of_mem_filter hf)]
  rfl

lemma iter_notes_plain {files : RelFS}
    (hsort : List.Sorted pathLeP ((eligible files).map (fun f => f.1)))
    (huniq : ((eligible files).map (fun f => pyLower (pathStem f.1))).Nodup)
    (hplain : ∀ f ∈ files, decode f.2 = some ([], f.2)) :
    iter_notes files = (eligible files).map plainNote := by
  rw [iter_notes, list_notes_sorted files hsort, List.filterMap_map]
  exact filterMap_eq_map_of_some (fun f hf => readRel_eligible huniq hplain f hf)

/-- The per-query strategy over a plain corpus: one record per eligible
file with a matching link, in scan order. -/
lemma vm_side {files : RelFS} {name : String}
    (hsort : List.Sorted pathLeP ((eligible files).map (fun f => f.1)))
    (huniq : ((eligible files).map (fun f => pyLower (pathStem f.1))).Nodup)
    (hplain : ∀ f ∈ files, decode f.2 = some ([], f.2)) :
    vm_get_backlinks files name =
      ((eligible files).filter (fun f =>
        (br_extract_wikilinks f.2).any (fun t => pyLower t == pyLower name))).map
        (fun f => (pathStem f.1, f.1)) := by
  rw [vm_get_backlinks, iter_notes_plain hsort huniq hplain, get_backlinks,
    filterMap_ite, List.filter_map, List.map_map]
  congr 1
  refine List.filter_congr fun f _ => ?_
  show linksToName (plainNote f) (pyLower name) = _
  rw [br_extract_wikilinks, any_map_own]
  rfl

end Vault

namespace Vault

lemma brAppend_lookup_self (g : BRGraph) (K src : String) (d : BRData)
    (hd : brLookup g K = some d) :
    brLookup (brAppendBacklink g K src) K =
      some ⟨d.path, d.outgoing, d.backlinks ++ [src]⟩ := by
  have hkey : ∀ e : String × BRData,
      ((if e.1 == K then
          (e.1, (⟨e.2.path, e.2.outgoing, e.2.backlinks ++ [src]⟩ : BRData))
        else e)).1 = e.1 := by
    intro e
    by_cases he : (e.1 == K) = true
    · rw [if_pos he]
    · rw [if_neg he]
  rw [brAppendBacklink, brLookup,
    find?_map_keep_keys (fun e => if e.1 == K then
      (e.1, (⟨e.2.path, e.2.outgoing, e.2.backlinks ++ [src]⟩ : BRData)) else e)
      hkey K g]
  rw [brLookup] at hd
  cases hf : g.find? (fun e => e.1 == K) with
  | none =>
    rw [hf] at hd
    cases hd
  | some e =>
    rw [hf] at hd
    have he2 : e.2 = d := Option.some.inj hd
    have heK := List.find?_some hf
    rw [Option.map_some', Option.map_some', if_pos heK, ← he2]

lemma brAppend_lookup_other (g : BRGraph) (kk src K : String) (hne : kk ≠ K) :
    brLookup (brAppendBacklink g kk src) K = brLookup g K := by
  have hkey : ∀ e : String × BRData,
      ((if e.1 == kk then
          (e.1, (⟨e.2.path, e.2.outgoing, e.2.backlinks ++ [src]⟩ : BRData))
        else e)).1 = e.1 := by
    intro e
    by_cases he : (e.1 == kk) = true
    · rw [if_pos he]
    · rw [if_neg he]
  rw [brAppendBacklink, brLookup,
    find?_map_keep_keys (fun e => if e.1 == kk then
      (e.1, (⟨e.2.path, e.2.outgoing, e.2.backlinks ++ [src]⟩ : BRData)) else e)
      hkey K g]
  cases hf : g.find? (fun e => e.1 == K) with
  | none =>
    rw [brLookup, hf]
    rfl
  | some e =>
    rw [brLookup, hf]
    have hpe := List.find?_some hf
    have heK : e.1 = K := eq_of_beq hpe
    have hne2 : (e.1 == kk) = false :=
      beq_eq_false_iff_ne.mpr (by rw [heK]; exact Ne.symm hne)
    rw [Option.map_some', Option.map_some', if_neg (by simp [hne2])]
    rfl

lemma brAppend_keys (g : BRGraph) (kk src : String) :
    (brAppendBacklink g kk src).map (fun e => e.1) = g.map (fun e => e.1) := by
  induction g with
  | nil => rfl
  | cons e g ih =>
    rw [brAppendBacklink, List.map_cons, List.map_cons, List.map_cons]
    rw [brAppendBacklink] at ih
    rw [ih]
    by_cases he : (e.1 == kk) = true
    · rw [if_pos he]
    · rw [if_neg he]

lemma brStep_keys (g : BRGraph) (p : String × String) :
    (brStep g p).map (fun e => e.1) = g.map (fun e => e.1) := by
  rw [brStep]
  cases hf : brFindKey g p.2 with
  | some kk => exact brAppend_keys g kk p.1
  | none => rfl

lemma foldl_brStep_keys :
    ∀ (pairs : List (String × String)) (g : BRGraph),
      ((pairs.foldl brStep g).map (fun e => e.1)) = g.map (fun e => e.1) := by
  intro pairs
  induction pairs with
  | nil => intro g; rfl
  | cons p pairs ih =>
    intro g
    rw [List.foldl_cons, ih, brStep_keys]

lemma brFindKey_unique {g : BRGraph}
    (hnd : (g.map (fun e => pyLower e.1)).Nodup)
    {K : String} (hK : K ∈ g.map (fun e => e.1)) (t : String)
    (hlow : pyLower t = pyLower K) : brFindKey g t = some K := by
  rw [brFindKey]
  cases hfind : (g.map (fun e => e.1)).find? (fun k => pyLower k == pyLower t) with
  | none =>
    exfalso
    apply List.find?_eq_none.mp hfind K hK
    rw [hlow]
    exact beq_self_eq_true _
  | some k0 =>
    have hp := List.find?_some hfind
    have hmem := List.mem_of_find?_eq_some hfind
    have hnd2 : ((g.map (fun e => e.1)).map pyLower).Nodup := by
      rw [List.map_map]
      exact hnd
    have hk0 : k0 = K := by
      apply List.inj_on_of_nodup_map hnd2 hmem hK
      rw [eq_of_beq hp, hlow]
    rw [hk0]

/-- The accumulated backlinks at key `K` after pass 2's fold: the base
list extended with one source per matching (source, target)
occurrence, in order. -/
lemma foldl_brStep_backlinks :
    ∀ (pairs : List (String × String)) (g : BRGraph) (K : String) (d : BRData),
      (g.map (fun e => pyLower e.1)).Nodup →
      brLookup g K = some d →
      brLookup (pairs.foldl brStep g) K =
        some ⟨d.path, d.outgoing,
          d.backlinks ++ pairs.filterMap (fun p =>
            if pyLower p.2 == pyLower K then some p.1 else none)⟩ := by
  intro pairs
  induction pairs with
  | nil =>
    intro g K d _ hd
    rw [List.foldl_nil, List.filterMap_nil, List.append_nil, hd]
  | cons p pairs ih =>
    intro g K d hnd hd
    rw [List.foldl_cons]
    have hkeys := brStep_keys g p
    have hnd2 : ((brStep g p).map (fun e => pyLower e.1)).Nodup := by
      have h1 : (brStep g p).map (fun e => pyLower e.1) =
          ((brStep g p).map (fun e => e.1)).map pyLower := by
        rw [List.map_map]
        rfl
      have h2 : (g.map (fun e => e.1)).map pyLower =
          g.map (fun e => pyLower e.1) := by
        rw [List.map_map]
        rfl
      rw [h1, hkeys, h2]
      exact hnd
    have hKmem : K ∈ g.map (fun e => e.1) := by
      rw [brLookup] at hd
      cases hf : g.find? (fun e => e.1 == K) with
      | none =>
        rw [hf] at hd
        cases hd
      | some e =>
        have hpe := List.find?_some hf
        have h1 : e.1 = K := eq_of_beq hpe
        exact h1 ▸ List.mem_map_of_mem _ (List.mem_of_find?_eq_some hf)
    by_cases hmatch : (pyLower p.2 == pyLower K) = true
    · have hfk : brFindKey g p.2 = some K :=
        brFindKey_unique hnd hKmem p.2 (eq_of_beq hmatch)
      have hstep : brStep g p = brAppendBacklink g K p.1 := by
        rw [brStep, hfk]
      have hd2 : brLookup (brStep g p) K =
          some ⟨d.path, d.outgoing, d.backlinks ++ [p.1]⟩ := by
        rw [hstep]
        exact brAppend_lookup_self g K p.1 d hd
      rw [ih (brStep g p) K _ hnd2 hd2, List.filterMap_cons, if_pos hmatch]
      simp
    · have hstepK : brLookup (brStep g p) K = some d := by
        rw [brStep]
        cases hfk : brFindKey g p.2 with
        | none => exact hd
        | some kk =>
          have hkk := List.find?_some hfk
          have hne : kk ≠ K := by
            intro hc
            subst hc
            exact hmatch (by rw [← eq_of_beq hkk]; exact beq_self_eq_true _)
          rw [brAppend_lookup_other g kk p.1 K hne]
          exact hd
      rw [ih (brStep g p) K d hnd2 hstepK, List.filterMap_cons, if_neg hmatch]

end Vault

namespace Vault

lemma stems_nodup {files : RelFS}
    (huniq : ((eligible files).map (fun f => pyLower (pathStem f.1))).Nodup) :
    ((eligible files).map (fun f => pathStem f.1)).Nodup := by
  apply List.Nodup.of_map pyLower
  have h1 : ((eligible files).map (fun f => pathStem f.1)).map pyLower =
      (eligible files).map (fun f => pyLower (pathStem f.1)) := by
    rw [List.map_map]
    rfl
  rw [h1]
  exact huniq

lemma pass1_fold_fresh : ∀ (fs : RelFS) (g : BRGraph),
    (∀ f ∈ fs, ∀ e ∈ g, e.1 ≠ pathStem f.1) →
    (fs.map (fun f => pathStem f.1)).Nodup →
    fs.foldl (fun g f => brInsert g (pathStem f.1)
        ⟨f.1, br_extract_wikilinks f.2, []⟩) g =
      g ++ fs.map (fun f => (pathStem f.1, brEntry f)) := by
  intro fs
  induction fs with
  | nil =>
    intro g _ _
    simp
  | cons f fs ih =>
    intro g hfresh hnodup
    rw [List.foldl_cons]
    have hany : g.any (fun e => e.1 == pathStem f.1) = false := by
      rw [List.any_eq_false]
      intro e he
      rw [Bool.not_eq_true, beq_eq_false_iff_ne]
      exact hfresh f (List.mem_cons_self f fs) e he
    rw [show brInsert g (pathStem f.1) ⟨f.1, br_extract_wikilinks f.2, []⟩ =
      g ++ [(pathStem f.1, brEntry f)] by
        rw [brInsert, if_neg (by simp [hany])]
        rfl]
    rw [ih (g ++ [(pathStem f.1, brEntry f)]) ?_ ?_]
    · rw [List.map_cons, List.append_assoc]
      rfl
    · intro f2 hf2 e he
      rcases List.mem_append.mp he with he1 | he2
      · exact hfresh f2 (List.mem_cons_of_mem _ hf2) e he1
      · have he3 : e = (pathStem f.1, brEntry f) := List.mem_singleton.mp he2
        rw [he3]
        intro hc
        have hc2 : pathStem f.1 = pathStem f2.1 := hc
        have hn := (List.nodup_cons.mp hnodup).1
        apply hn
        show pathStem f.1 ∈ List.map (fun f => pathStem f.1) fs
        rw [hc2]
        exact List.mem_map_of_mem _ hf2
    · exact (List.nodup_cons.mp hnodup).2

lemma pass1_eq_map {files : RelFS}
    (hstem : ((eligible files).map (fun f => pathStem f.1)).Nodup) :
    scan_pass1 files =
      (eligible files).map (fun f => (pathStem f.1, brEntry f)) := by
  rw [scan_pass1, pass1_fold_fresh (eligible files) []
    (fun f _ e he => absurd he (List.not_mem_nil e)) hstem]
  rfl

/-- Looking a key up in an entry list built by `map`. -/
lemma lookup_entries (l : RelFS) (K : String) :
    brLookup (l.map (fun f => (pathStem f.1, brEntry f))) K =
      (l.find? (fun f => pathStem f.1 == K)).map brEntry := by
  induction l with
  | nil => rfl
  | cons f l ih =>
    rw [List.map_cons]
    by_cases hk : (pathStem f.1 == K) = true
    · rw [brLookup, find?_cons_key_pos K (pathStem f.1, brEntry f) _ hk,
        find?_cons_stem_pos K f l hk]
      rfl
    · rw [brLookup, find?_cons_key_neg K (pathStem f.1, brEntry f) _
          (by rwa [Bool.not_eq_true] at hk),
        find?_cons_stem_neg K f l (by rwa [Bool.not_eq_true] at hk)]
      rw [brLookup] at ih
      exact ih

end Vault

namespace Vault

lemma filterMap_flatMap {α β γ : Type} (l : List α) (g : α → List β)
    (h : β → Option γ) :
    (l.flatMap g).filterMap h = l.flatMap (fun a => (g a).filterMap h) := by
  induction l with
  | nil => rfl
  | cons a l ih =>
    rw [List.flatMap_cons, List.flatMap_cons, List.filterMap_append, ih]

lemma flatMap_map_own {α β γ : Type} (F : α → β) (G : β → List γ) (l : List α) :
    (l.map F).flatMap G = l.flatMap (fun a => G (F a)) := by
  induction l with
  | nil => rfl
  | cons a l ih => rw [List.map_cons, List.flatMap_cons, List.flatMap_cons, ih]

lemma filterMap_map_own {α β γ : Type} (g : α → β) (h : β → Option γ)
    (l : List α) :
    (l.map g).filterMap h = l.filterMap (fun a => h (g a)) := by
  induction l with
  | nil => rfl
  | cons a l ih =>
    rw [List.map_cons, List.filterMap_cons, List.filterMap_cons, ih]

lemma flatMap_congr_own {α β : Type} (l : List α) (f g : α → List β)
    (h : ∀ a ∈ l, f a = g a) : l.flatMap f = l.flatMap g := by
  induction l with
  | nil => rfl
  | cons a l ih =>
    rw [List.flatMap_cons, List.flatMap_cons, h a (List.mem_cons_self a l),
      ih (fun b hb => h b (List.mem_cons_of_mem a hb))]

/-- Sources with at most one matching occurrence contribute their value
once when they match and nothing otherwise. -/
lemma flatMap_filter_single {α : Type} (l : List α) (ts : α → List String)
    (cond : String → Bool) (val : α → String)
    (hsingle : ∀ a ∈ l, ((ts a).filter cond).length ≤ 1) :
    l.flatMap (fun a => ((ts a).filter cond).map (fun _ => val a)) =
      (l.filter (fun a => (ts a).any cond)).map val := by
  induction l with
  | nil => rfl
  | cons a l ih =>
    rw [List.flatMap_cons, List.filter_cons]
    by_cases hany : (ts a).any cond = true
    · have hpos : 0 < ((ts a).filter cond).length := by
        obtain ⟨x, hx, hcx⟩ := List.any_eq_true.mp hany
        exact List.length_pos_of_mem (List.mem_filter.mpr ⟨hx, hcx⟩)
      have h1 : ((ts a).filter cond).length = 1 :=
        le_antisymm (hsingle a (List.mem_cons_self a l)) hpos
      obtain ⟨x, hx⟩ := List.length_eq_one.mp h1
      rw [hx, if_pos hany, List.map_cons,
        ih (fun b hb => hsingle b (List.mem_cons_of_mem a hb))]
      rfl
    · have hnil : (ts a).filter cond = [] := by
        rw [List.filter_eq_nil_iff]
        intro x hx
        have h2 := List.any_eq_false.mp (by rwa [Bool.not_eq_true] at hany) x hx
        exact h2
      rw [hnil, if_neg hany, ih (fun b hb => hsingle b (List.mem_cons_of_mem a hb))]
      rfl

/-- With case-insensitively unique stems, the first listed file with a
given stem is the only one. -/
lemma find?_stem_unique {files : RelFS}
    (huniq : ((eligible files).map (fun f => pyLower (pathStem f.1))).Nodup)
    {f0 : String × String} (hf0 : f0 ∈ eligible files) {K : String}
    (hK : pathStem f0.1 = K) :
    (eligible files).find? (fun f => pathStem f.1 == K) = some f0 := by
  cases hfind : (eligible files).find? (fun f => pathStem f.1 == K) with
  | none =>
    exfalso
    apply List.find?_eq_none.mp hfind f0 hf0
    rw [hK]
    exact beq_self_eq_true K
  | some f1 =>
    have hp := List.find?_some hfind
    have hmem := List.mem_of_find?_eq_some hfind
    have h10 : f1 = f0 := by
      apply List.inj_on_of_nodup_map huniq hmem hf0
      show pyLower (pathStem f1.1) = pyLower (pathStem f0.1)
      rw [eq_of_beq hp, hK]
    rw [h10]

/-- After the full batch scan, a unique-stem file's entry still holds
its own path. -/
lemma scan_vault_lookup_path {files : RelFS}
    (huniq : ((eligible files).map (fun f => pyLower (pathStem f.1))).Nodup)
    {f : String × String} (hf : f ∈ eligible files) :
    ∃ d, brLookup (scan_vault files) (pathStem f.1) = some d ∧ d.path = f.1 := by
  have hstem := stems_nodup huniq
  have hg1 : brLookup (scan_pass1 files) (pathStem f.1) = some (brEntry f) := by
    rw [pass1_eq_map hstem, lookup_entries, find?_stem_unique huniq hf rfl]
    rfl
  have hproj := pass2_lookup_proj (scan_pass1 files) (pathStem f.1)
  rw [hg1] at hproj
  cases hv : brLookup (scan_pass2 (scan_pass1 files)) (pathStem f.1) with
  | none =>
    rw [hv] at hproj
    cases hproj
  | some d =>
    rw [hv] at hproj
    refine ⟨d, by rw [scan_vault]; exact hv, ?_⟩
    have h2 := Option.some.inj hproj
    exact congrArg Prod.fst h2

end Vault

/-- C9 amended: the two backlink strategies agree — the same sequence of
`(name, path)` records — on corpora where (i) the eligible files are
listed in sorted order (aligning `rglob` order with `list_notes`'s
sort), (ii) every file is frontmatter-free, so titles fall back to the
stems both strategies report, (iii) stems are case-insensitively
unique, so the batch graph loses nothing, (iv) each source contains at
most one link matching the queried name, matching `get_backlinks`'s
break against the resolver's per-occurrence append, and (v) the
queried name matches an existing note's stem, the case where the
resolver does not return `[]` outright. -/
theorem C9_backlinks_agree (files : Vault.RelFS) (name : String)
    (hsort : List.Sorted Vault.pathLeP ((Vault.eligible files).map (fun f => f.1)))
    (hplain : ∀ f ∈ files, Vault.decode f.2 = some ([], f.2))
    (huniq : ((Vault.eligible files).map
      (fun f => Vault.pyLower (Vault.pathStem f.1))).Nodup)
    (hsingle : ∀ f ∈ Vault.eligible files,
      ((Vault.br_extract_wikilinks f.2).filter
        (fun t => Vault.pyLower t == Vault.pyLower name)).length ≤ 1)
    (hexists : ∃ f ∈ Vault.eligible files,
      Vault.pyLower (Vault.pathStem f.1) = Vault.pyLower name) :
    Vault.vm_get_backlinks files name = Vault.br_get_backlinks files name := by
  obtain ⟨f0, hf0, hlow0⟩ := hexists
  have hstem := Vault.stems_nodup huniq
  have hg1 := @Vault.pass1_eq_map files hstem
  have hkeysg1 : (Vault.scan_pass1 files).map (fun e => e.1) =
      (Vault.eligible files).map (fun f => Vault.pathStem f.1) := by
    rw [hg1, List.map_map]
    rfl
  have hndg1 : ((Vault.scan_pass1 files).map
      (fun e => Vault.pyLower e.1)).Nodup := by
    have h1 : (Vault.scan_pass1 files).map (fun e => Vault.pyLower e.1) =
        ((Vault.scan_pass1 files).map (fun e => e.1)).map Vault.pyLower := by
      rw [List.map_map]
      rfl
    have h2 : ((Vault.eligible files).map
        (fun f => Vault.pathStem f.1)).map Vault.pyLower =
        (Vault.eligible files).map
          (fun f => Vault.pyLower (Vault.pathStem f.1)) := by
      rw [List.map_map]
      rfl
    rw [h1, hkeysg1, h2]
    exact huniq
  have hkeyssv : (Vault.scan_vault files).map (fun e => e.1) =
      (Vault.scan_pass1 files).map (fun e => e.1) := by
    rw [Vault.scan_vault, Vault.scan_pass2, Vault.foldl_brStep_keys]
  have hndsv : ((Vault.scan_vault files).map
      (fun e => Vault.pyLower e.1)).Nodup := by
    have h1 : (Vault.scan_vault files).map (fun e => Vault.pyLower e.1) =
        ((Vault.scan_vault files).map (fun e => e.1)).map Vault.pyLower := by
      rw [List.map_map]
      rfl
    have h2 : ((Vault.scan_pass1 files).map (fun e => e.1)).map Vault.pyLower =
        (Vault.scan_pass1 files).map (fun e => Vault.pyLower e.1) := by
      rw [List.map_map]
      rfl
    rw [h1, hkeyssv, h2]
    exact hndg1
  have hKmem : Vault.pathStem f0.1 ∈
      (Vault.scan_vault files).map (fun e => e.1) := by
    rw [hkeyssv, hkeysg1]
    exact List.mem_map_of_mem _ hf0
  have hfk : Vault.brFindKey (Vault.scan_vault files) name =
      some (Vault.pathStem f0.1) :=
    Vault.brFindKey_unique hndsv hKmem name hlow0.symm
  have hlookg1 : Vault.brLookup (Vault.scan_pass1 files) (Vault.pathStem f0.1) =
      some (Vault.brEntry f0) := by
    rw [hg1, Vault.lookup_entries, Vault.find?_stem_unique huniq hf0 rfl]
    rfl
  have hacc := Vault.foldl_brStep_backlinks
    ((Vault.scan_pass1 files).flatMap (fun e => e.2.outgoing.map (fun t => (e.1, t))))
    (Vault.scan_pass1 files) (Vault.pathStem f0.1) (Vault.brEntry f0) hndg1 hlookg1
  rw [show ((Vault.scan_pass1 files).flatMap
      (fun e => e.2.outgoing.map (fun t => (e.1, t)))).foldl Vault.brStep
      (Vault.scan_pass1 files) = Vault.scan_vault files by
    rw [Vault.scan_vault, Vault.scan_pass2]] at hacc
  -- the accumulated backlink list, rewritten over the corpus
  have hpairs2 : (Vault.scan_pass1 files).flatMap
      (fun e => e.2.outgoing.map (fun t => (e.1, t))) =
      (Vault.eligible files).flatMap
        (fun f => (Vault.br_extract_wikilinks f.2).map
          (fun t => (Vault.pathStem f.1, t))) := by
    rw [hg1, Vault.flatMap_map_own]
    rfl
  have hinner : ∀ f ∈ Vault.eligible files,
      ((Vault.br_extract_wikilinks f.2).map
          (fun t => ((Vault.pathStem f.1, t) : String × String))).filterMap
        (fun p => if Vault.pyLower p.2 ==
            Vault.pyLower (Vault.pathStem f0.1) then some p.1 else none) =
      ((Vault.br_extract_wikilinks f.2).filter
          (fun t => Vault.pyLower t == Vault.pyLower name)).map
        (fun _ => Vault.pathStem f.1) := by
    intro f _
    rw [Vault.filterMap_map_own]
    have h3 : (fun a =>
        if Vault.pyLower ((Vault.pathStem f.1, a) : String × String).2 ==
            Vault.pyLower (Vault.pathStem f0.1) then
          some ((Vault.pathStem f.1, a) : String × String).1 else none) =
        (fun a => if Vault.pyLower a == Vault.pyLower name then
          some (Vault.pathStem f.1) else none) := by
      funext a
      rw [hlow0]
    rw [h3]
    exact Vault.filterMap_ite
      (fun t => Vault.pyLower t == Vault.pyLower name)
      (fun _ => Vault.pathStem f.1) (Vault.br_extract_wikilinks f.2)
  have hbl : ((Vault.scan_pass1 files).flatMap
      (fun e => e.2.outgoing.map (fun t => (e.1, t)))).filterMap
        (fun p => if Vault.pyLower p.2 ==
            Vault.pyLower (Vault.pathStem f0.1) then some p.1 else none) =
      ((Vault.eligible files).filter (fun f =>
        (Vault.br_extract_wikilinks f.2).any
          (fun t => Vault.pyLower t == Vault.pyLower name))).map
        (fun f => Vault.pathStem f.1) := by
    rw [hpairs2, Vault.filterMap_flatMap]
    exact (Vault.flatMap_congr_own _ _ _ hinner).trans
      (Vault.flatMap_filter_single (Vault.eligible files)
        (fun f => Vault.br_extract_wikilinks f.2)
        (fun t => Vault.pyLower t == Vault.pyLower name)
        (fun f => Vault.pathStem f.1) hsingle)
  -- assemble
  have hper : ∀ f ∈ (Vault.eligible files).filter (fun f =>
      (Vault.br_extract_wikilinks f.2).any
        (fun t => Vault.pyLower t == Vault.pyLower name)),
      (Vault.brLookup (Vault.scan_vault files) (Vault.pathStem f.1)).map
        (fun sd => ((Vault.pathStem f.1, sd.path) : String × String)) =
        some ((Vault.pathStem f.1, f.1)) := by
    intro f hfmem
    obtain ⟨d, hd, hdp⟩ :=
      Vault.scan_vault_lookup_path huniq (List.mem_of_mem_filter hfmem)
    rw [hd, Option.map_some', hdp]
  simp only [Vault.br_get_backlinks, hfk]
  rw [hacc]
  simp only [Option.map_some', Option.getD_some]
  rw [show (Vault.brEntry f0).backlinks = [] from rfl, List.nil_append, hbl]
  rw [Vault.filterMap_map_own, Vault.filterMap_eq_map_of_some hper]
  rw [Vault.vm_side hsort huniq hplain]

/-- C9 witness: on the sorted, frontmatter-free, unique-stem corpus
`{a.md ↦ "[[B]]", b.md ↦ "hello"}` with query `"B"` (matching note
`b.md` case-insensitively), the two strategies return the same
records. -/
theorem C9_witness :
    Vault.vm_get_backlinks [("a.md", "[[B]]"), ("b.md", "hello")] "B" =
      Vault.br_get_backlinks [("a.md", "[[B]]"), ("b.md", "hello")] "B" :=
  C9_backlinks_agree [("a.md", "[[B]]"), ("b.md", "hello")] "B"
    (by decide) (by decide) (by decide) (by decide) (by decide)
